import Mathlib

/-!
# Verification of the spendings-backend transaction subsystem

Shallow embedding of `internal/service/statistics.go` (the `TransactionsService`
and `StatisticsService`), `internal/models/models.go`, and the parts of the
repeat-specification grammar they use.

Modelling conventions:

* Go `time.Time` is modelled by `GoTime`: a day number (days since 0001-01-01
  in the proleptic Gregorian calendar, Go's own epoch for `time.Time{}`)
  together with the nanosecond offset within the day.  The process runs in a
  single fixed location with zero offset, so `Truncate(24 * time.Hour)`
  truncates to civil midnight and calendar arithmetic needs no zone handling.
  Note that `/` and `%` on `Int` are euclidean division here, which agrees
  with the floor division performed by Go's `norm` for positive divisors.
* Go `time.Date` normalizes out-of-range months and days (e.g. February 31
  becomes March 2 or 3); `daysFromCivil` reproduces that normalization.
* `float64` amounts are modelled by `ℚ`; page arithmetic done by Go through
  `math.Ceil` on exact small integers is modelled by exact integer ceiling
  division.
* Go maps are modelled by association lists; iteration order is list order,
  and `m[k] = v` is replace-in-place or append.
-/

/-- A Go `time.Time` in a fixed location: `day` counts days since 0001-01-01
(day 0, the zero `time.Time`), `tod` is the nanosecond offset inside the day. -/
structure GoTime where
  day : Int
  tod : Nat
deriving DecidableEq, Repr

/-- `time.Time.IsZero`: the zero time is midnight of 0001-01-01. -/
def GoTime.isZero (t : GoTime) : Bool :=
  t.day == 0 && t.tod == 0

/-- Strict instant order (`time.Time.Before`). -/
def GoTime.ltb (a b : GoTime) : Bool :=
  a.day < b.day || (a.day == b.day && a.tod < b.tod)

/-- `time.Time.After`. -/
def GoTime.after (a b : GoTime) : Bool := GoTime.ltb b a

/-- `time.Time.Before`. -/
def GoTime.before (a b : GoTime) : Bool := GoTime.ltb a b

/-- `t.Truncate(24 * time.Hour)`: truncate to the start of the civil day. -/
def GoTime.truncateDay (t : GoTime) : GoTime :=
  ⟨t.day, 0⟩

/-! ### The proleptic Gregorian calendar

`daysFromCivil` mirrors Go's `time.Date` normalization; `civilFromDays` is its
inverse on day numbers (Go's `Time.Date()` accessor).  Both use the standard
era decomposition: 400 Gregorian years are exactly 146097 days, and counting
years from March 1 puts each leap day at the very end of a year-of-era. -/

/-- Days from the civil triple `(y, m, d)` to the 0001-01-01 epoch, with Go's
`time.Date` normalization: the month is first normalized into `1..12`
(shifting the year), then the day is added as a plain offset from the first of
the month, so out-of-range days roll over into neighbouring months. -/
def daysFromCivil (y m d : Int) : Int :=
  let y1 : Int := y + (m - 1) / 12
  let m1 : Int := (m - 1) % 12 + 1
  let y2 : Int := if m1 ≤ 2 then y1 - 1 else y1
  let era : Int := y2 / 400
  let yoe : Int := y2 - era * 400
  let mp : Int := (m1 + 9) % 12
  let doy : Int := (153 * mp + 2) / 5 + (d - 1)
  let doe : Int := yoe * 365 + yoe / 4 - yoe / 100 + doy
  era * 146097 + doe - 306

/-- Era-local year-of-era extraction: the year-of-era a day-of-era lies in. -/
def natYoeOf (doe : Nat) : Nat :=
  (doe - doe / 1460 + doe / 36524 - doe / 146096) / 365

/-- First day-of-era of year-of-era `yoe`. -/
def natStart (yoe : Nat) : Nat := 365 * yoe + yoe / 4 - yoe / 100

/-- Day-of-year within the March-based year-of-era. -/
def natDoyOf (doe : Nat) : Nat := doe - natStart (natYoeOf doe)

/-- Shifted month (March = 0) of a day-of-era. -/
def natMpOf (doe : Nat) : Nat := (5 * natDoyOf doe + 2) / 153

/-- Day-of-year at which shifted month `mp` starts. -/
def natMOff (mp : Nat) : Nat := (153 * mp + 2) / 5

/-- Day-of-month of a day-of-era. -/
def natDOf (doe : Nat) : Nat := natDoyOf doe - natMOff (natMpOf doe) + 1

/-- Day-of-era of a (year-of-era, shifted month, day-of-month) triple. -/
def natF (yoe mp d : Nat) : Nat := natStart yoe + natMOff mp + d - 1

/-- Length in days of year-of-era `yoe` (March-based, so the leap day of the
year is decided by the calendar year `yoe + 1` of the era). -/
def lenYoe (yoe : Nat) : Nat :=
  if (yoe + 1) % 4 = 0 ∧ ((yoe + 1) % 100 ≠ 0 ∨ yoe + 1 = 400) then 366 else 365

/-- Length of shifted month `mp` in year-of-era `yoe` (February is the last
month of the March-based year). -/
def shiftedMonthLen (yoe mp : Nat) : Nat :=
  if mp = 11 then (if lenYoe yoe = 366 then 29 else 28)
  else if mp = 1 ∨ mp = 3 ∨ mp = 6 ∨ mp = 8 then 30
  else 31

/-- Inverse of `daysFromCivil` on day numbers: the civil `(year, month, day)`
of a day number (components always in range: `month ∈ [1,12]`, `day ∈ [1,31]`).
The era-local part is delegated to the `Nat` helpers above; the `toNat` is
exact because the day-of-era lies in `[0, 146096]`. -/
def civilFromDays (z : Int) : Int × Int × Int :=
  let era : Int := (z + 306) / 146097
  let n : Nat := (z + 306 - era * 146097).toNat
  let yoe : Int := natYoeOf n
  let mp : Int := natMpOf n
  let d : Int := natDOf n
  let m : Int := if mp < 10 then mp + 3 else mp - 9
  (if m ≤ 2 then yoe + era * 400 + 1 else yoe + era * 400, m, d)

/-- Year component of the civil date of a day number. -/
def civYear (z : Int) : Int := (civilFromDays z).1

/-- Month component of the civil date of a day number. -/
def civMonth (z : Int) : Int := (civilFromDays z).2.1

/-- Day-of-month component of the civil date of a day number. -/
def civDay (z : Int) : Int := (civilFromDays z).2.2

/-- Gregorian leap-year test. -/
def isLeap (y : Int) : Bool :=
  y % 4 == 0 && (y % 100 != 0 || y % 400 == 0)

/-- Length of month `m ∈ [1,12]` of year `y`. -/
def daysInMonth (y m : Int) : Int :=
  if m = 2 then (if isLeap y then 29 else 28)
  else if m = 4 ∨ m = 6 ∨ m = 9 ∨ m = 11 then 30
  else 31

/-! ### Verification of the era-local calendar arithmetic

The year-of-era extraction formula in `natYoeOf` mixes four integer divisions
in a way linear-arithmetic automation cannot untangle directly.  It is instead
verified at the 800 year boundaries of one era by kernel computation
(`yearFact_all`), and extended to every day-of-era by monotonicity. -/

/-- `checkFrom p lo n` checks `p` on `lo, lo+1, ..., lo+n-1`. -/
def checkFrom (p : Nat → Bool) : Nat → Nat → Bool
  | _, 0 => true
  | lo, n + 1 => p lo && checkFrom p (lo + 1) n

theorem checkFrom_spec {p : Nat → Bool} :
    ∀ {n lo}, checkFrom p lo n = true → ∀ {i}, lo ≤ i → i < lo + n → p i = true := by
  intro n
  induction n with
  | zero => intro lo _ i h1 h2; omega
  | succ k ih =>
    intro lo h i h1 h2
    rw [checkFrom, Bool.and_eq_true] at h
    rcases Nat.eq_or_lt_of_le h1 with rfl | hlt
    · exact h.1
    · exact ih h.2 hlt (by omega)

/-- The boundary facts of one year-of-era: `natYoeOf` is exact at the first
and last day of the year, and consecutive years tile the era. -/
def yearFact (yoe : Nat) : Bool :=
  decide (natYoeOf (natStart yoe) = yoe) &&
    decide (natYoeOf (natStart yoe + lenYoe yoe - 1) = yoe) &&
    decide (natStart yoe + lenYoe yoe = (if yoe = 399 then 146097 else natStart (yoe + 1)))

set_option maxRecDepth 2048 in
theorem yearFact_all : checkFrom yearFact 0 400 = true := by decide

theorem yearFact_true {yoe : Nat} (h : yoe ≤ 399) :
    natYoeOf (natStart yoe) = yoe ∧ natYoeOf (natStart yoe + lenYoe yoe - 1) = yoe ∧
      natStart yoe + lenYoe yoe = (if yoe = 399 then 146097 else natStart (yoe + 1)) := by
  have hf := checkFrom_spec yearFact_all (Nat.zero_le yoe) (by omega)
  rw [yearFact, Bool.and_eq_true, Bool.and_eq_true] at hf
  exact ⟨of_decide_eq_true hf.1.1, of_decide_eq_true hf.1.2, of_decide_eq_true hf.2⟩

theorem natYoeOf_mono {a b : Nat} (hab : a ≤ b) (hb : b ≤ 146096) :
    natYoeOf a ≤ natYoeOf b := by
  induction b with
  | zero => simp_all
  | succ k ih =>
    rcases Nat.eq_or_lt_of_le hab with rfl | hlt
    · exact le_refl _
    · calc natYoeOf a ≤ natYoeOf k := ih (by omega) (by omega)
        _ ≤ natYoeOf (k + 1) := by
          unfold natYoeOf
          exact Nat.div_le_div_right (by omega)

theorem natStart_mono {a b : Nat} (h : a ≤ b) : natStart a ≤ natStart b := by
  have h4 : a / 4 ≤ b / 4 := Nat.div_le_div_right h
  have h100 : a / 100 ≤ b / 100 := Nat.div_le_div_right h
  unfold natStart
  omega

/-- Consecutive years-of-era tile the era. -/
theorem natStart_tile {y : Nat} (h : y ≤ 398) : natStart y + lenYoe y = natStart (y + 1) := by
  have hy := (yearFact_true (show y ≤ 399 by omega)).2.2
  rwa [if_neg (by omega)] at hy

/-- Every day-of-era lies inside the year-of-era that `natYoeOf` assigns it. -/
theorem natYoeOf_covers (doe : Nat) (h : doe ≤ 146096) :
    natYoeOf doe ≤ 399 ∧ natStart (natYoeOf doe) ≤ doe ∧
      doe < natStart (natYoeOf doe) + lenYoe (natYoeOf doe) := by
  have h146096 : natYoeOf 146096 = 399 := by decide
  have hle : natYoeOf doe ≤ 399 := by
    have := @natYoeOf_mono doe 146096 h (le_refl _)
    omega
  refine ⟨hle, ?_, ?_⟩
  · by_contra hcon
    push_neg at hcon
    have hstart0 : natStart 0 = 0 := by decide
    have hy1 : 1 ≤ natYoeOf doe := by
      rcases Nat.eq_zero_or_pos (natYoeOf doe) with h0 | h1
      · rw [h0, hstart0] at hcon; omega
      · exact h1
    obtain ⟨_, hprev2, _⟩ := @yearFact_true (natYoeOf doe - 1) (by omega)
    have htile := @natStart_tile (natYoeOf doe - 1) (by omega)
    have hsucc : natYoeOf doe - 1 + 1 = natYoeOf doe := by omega
    rw [hsucc] at htile
    have hmax : natStart (natYoeOf doe) ≤ 145731 := by
      have := @natStart_mono (natYoeOf doe) 399 hle
      have h399 : natStart 399 = 145731 := by decide
      omega
    have hmono := @natYoeOf_mono
      doe (natStart (natYoeOf doe - 1) + lenYoe (natYoeOf doe - 1) - 1)
      (by omega) (by omega)
    rw [hprev2] at hmono
    omega
  · by_contra hcon
    push_neg at hcon
    rcases Nat.eq_or_lt_of_le hle with heq | hlt399
    · obtain ⟨_, _, hcur3⟩ := @yearFact_true (natYoeOf doe) (by omega)
      rw [heq, if_pos rfl] at hcur3
      rw [heq] at hcon
      omega
    · obtain ⟨hnext1, _, _⟩ := @yearFact_true (natYoeOf doe + 1) (by omega)
      have hcur3 := @natStart_tile (natYoeOf doe) (by omega)
      have hmono := @natYoeOf_mono (natStart (natYoeOf doe + 1)) doe (by omega) h
      rw [hnext1] at hmono
      omega

/-- Full decomposition of a day-of-era into (year-of-era, shifted month, day):
all components are in range and reconstruct the day-of-era exactly. -/
theorem doe_decomp (doe : Nat) (h : doe ≤ 146096) :
    natMpOf doe ≤ 11 ∧ natMOff (natMpOf doe) ≤ natDoyOf doe ∧ 1 ≤ natDOf doe ∧
      natDOf doe ≤ shiftedMonthLen (natYoeOf doe) (natMpOf doe) ∧
      natStart (natYoeOf doe) + natMOff (natMpOf doe) + natDOf doe - 1 = doe := by
  obtain ⟨h1, h2, h3⟩ := natYoeOf_covers doe h
  have hdoy : natDoyOf doe = doe - natStart (natYoeOf doe) := rfl
  have hlen : natDoyOf doe < lenYoe (natYoeOf doe) := by omega
  unfold natDOf natMpOf natMOff shiftedMonthLen lenYoe at *
  split_ifs at * <;> omega

/-- Reconstruction of the shifted month from a day-of-year built out of a
valid (shifted month, day-of-month) pair. -/
theorem natMpOf_reconstruct (mp d len : Nat) (hm : mp ≤ 11) (hd : 1 ≤ d)
    (hmonth : d ≤ (if mp = 11 then (if len = 366 then 29 else 28)
      else if mp = 1 ∨ mp = 3 ∨ mp = 6 ∨ mp = 8 then 30 else 31))
    (hdoy : (153 * mp + 2) / 5 + d - 1 ≤ len - 1)
    (hlen : 365 ≤ len) (hlen2 : len ≤ 366) :
    (5 * ((153 * mp + 2) / 5 + d - 1) + 2) / 153 = mp := by
  interval_cases mp <;> split_ifs at hmonth <;> omega

/-- The day-of-era of a valid (year-of-era, shifted month, day) triple is in
range and decomposes back to the same triple. -/
theorem natF_decomp (yoe mp d : Nat) (hy : yoe ≤ 399) (hm : mp ≤ 11) (hd : 1 ≤ d)
    (hlen : d ≤ shiftedMonthLen yoe mp) :
    natF yoe mp d ≤ 146096 ∧ natYoeOf (natF yoe mp d) = yoe ∧
      natMpOf (natF yoe mp d) = mp ∧ natDOf (natF yoe mp d) = d := by
  have hdoy : natMOff mp + d - 1 ≤ lenYoe yoe - 1 := by
    unfold natMOff shiftedMonthLen lenYoe at *
    split_ifs at * <;> omega
  have hstartlen : natStart yoe + lenYoe yoe ≤ 146097 := by
    have h1 : natStart yoe ≤ natStart 399 := natStart_mono hy
    have h2 : natStart 399 = 145731 := by decide
    unfold lenYoe
    split_ifs <;> omega
  have hF : natF yoe mp d = natStart yoe + (natMOff mp + d - 1) := by
    unfold natF; omega
  have hlenpos : 365 ≤ lenYoe yoe := by unfold lenYoe; split_ifs <;> omega
  have hbound : natF yoe mp d ≤ 146096 := by omega
  obtain ⟨hc1, hc2, hc3⟩ := natYoeOf_covers (natF yoe mp d) hbound
  have hyoe : natYoeOf (natF yoe mp d) = yoe := by
    rcases lt_trichotomy (natYoeOf (natF yoe mp d)) yoe with hlt | heq | hgt
    · have htile := @natStart_tile (natYoeOf (natF yoe mp d)) (by omega)
      have hmono := @natStart_mono (natYoeOf (natF yoe mp d) + 1) yoe (by omega)
      omega
    · exact heq
    · have htile := @natStart_tile yoe (by omega)
      have hmono := @natStart_mono (yoe + 1) (natYoeOf (natF yoe mp d)) (by omega)
      omega
  have hdoyF : natDoyOf (natF yoe mp d) = natMOff mp + d - 1 := by
    unfold natDoyOf
    rw [hyoe]
    omega
  have hlen366 : lenYoe yoe ≤ 366 := by unfold lenYoe; split_ifs <;> omega
  have hmpF : natMpOf (natF yoe mp d) = mp := by
    unfold natMpOf
    rw [hdoyF]
    unfold natMOff
    refine natMpOf_reconstruct mp d (lenYoe yoe) hm hd ?_ ?_ hlenpos hlen366
    · unfold shiftedMonthLen at hlen
      exact hlen
    · unfold natMOff at hdoy
      exact hdoy
  refine ⟨hbound, hyoe, hmpF, ?_⟩
  unfold natDOf
  rw [hdoyF, hmpF]
  omega

/-! ### Round-trip theorems for the calendar on `Int` day numbers -/

theorem isLeap_iff {y : Int} : isLeap y = true ↔ (y % 4 = 0 ∧ (y % 100 ≠ 0 ∨ y % 400 = 0)) := by
  simp [isLeap, Bool.and_eq_true, Bool.or_eq_true, beq_iff_eq, bne_iff_ne]

/-- `daysFromCivil` is linear in the day argument. -/
theorem daysFromCivil_linear (y m d : Int) :
    daysFromCivil y m d = daysFromCivil y m 0 + d := by
  simp only [daysFromCivil]
  split_ifs <;> omega

/-- Day numbers round-trip through their civil representation. -/
theorem daysFromCivil_civilFromDays (z : Int) :
    daysFromCivil (civYear z) (civMonth z) (civDay z) = z := by
  simp only [civYear, civMonth, civDay, civilFromDays]
  set era := (z + 306) / 146097 with hera
  set n := (z + 306 - era * 146097).toNat with hn
  have hn' : (n : Int) = z + 306 - era * 146097 := by
    rw [hn, Int.toNat_of_nonneg]; omega
  have hn96 : n ≤ 146096 := by omega
  obtain ⟨hm11, hmoff, hd1, hdlen, hrecon⟩ := doe_decomp n hn96
  obtain ⟨hy399, hc2, hc3⟩ := natYoeOf_covers n hn96
  set Y := natYoeOf n with hY
  set MP := natMpOf n with hMP
  set DD := natDOf n with hDD
  clear_value Y MP DD
  have hY399 : (Y : Int) ≤ 399 := by omega
  have hMP11 : (MP : Int) ≤ 11 := by omega
  have hDD1 : 1 ≤ (DD : Int) := by omega
  have hkey : 365 * (Y : Int) + (Y : Int) / 4 - (Y : Int) / 100 +
      (153 * (MP : Int) + 2) / 5 + ((DD : Int) - 1) = (n : Int) := by
    unfold natStart at hc2
    unfold natStart natMOff at hrecon
    omega
  clear hm11 hmoff hd1 hdlen hrecon hy399 hc2 hc3 hY hMP hDD
  clear_value n
  rcases Nat.lt_or_ge MP 10 with hmp10 | hmp10
  · rw [if_pos (show ((MP : Int)) < 10 by omega)]
    rw [if_neg (show ¬((MP : Int) + 3 ≤ 2) by omega)]
    simp only [daysFromCivil]
    rw [show ((MP : Int) + 3 - 1) / 12 = 0 by omega]
    rw [show ((MP : Int) + 3 - 1) % 12 = (MP : Int) + 2 by omega]
    rw [if_neg (show ¬((MP : Int) + 2 + 1 ≤ 2) by omega)]
    rw [show ((MP : Int) + 2 + 1 + 9) % 12 = (MP : Int) by omega]
    rw [show (Y : Int) + era * 400 + 0 - ((Y : Int) + era * 400 + 0) / 400 * 400 =
      (Y : Int) + era * 400 - ((Y : Int) + era * 400 + 0) / 400 * 400 by ring]
    rw [show ((Y : Int) + era * 400 + 0) / 400 = era by omega]
    omega
  · rw [if_neg (show ¬((MP : Int)) < 10 by omega)]
    rw [if_pos (show ((MP : Int) - 9 ≤ 2) by omega)]
    simp only [daysFromCivil]
    rw [show ((MP : Int) - 9 - 1) / 12 = 0 by omega]
    rw [show ((MP : Int) - 9 - 1) % 12 = (MP : Int) - 10 by omega]
    rw [if_pos (show ((MP : Int) - 10 + 1 ≤ 2) by omega)]
    rw [show ((MP : Int) - 10 + 1 + 9) % 12 = (MP : Int) by omega]
    rw [show ((Y : Int) + era * 400 + 1 + 0 - 1) / 400 = era by omega]
    omega

/-- The civil representation of a day number is in range. -/
theorem civilFromDays_range (z : Int) :
    1 ≤ civMonth z ∧ civMonth z ≤ 12 ∧ 1 ≤ civDay z ∧
      civDay z ≤ daysInMonth (civYear z) (civMonth z) := by
  simp only [civYear, civMonth, civDay, civilFromDays]
  set era := (z + 306) / 146097 with hera
  set n := (z + 306 - era * 146097).toNat with hn
  have hn96 : n ≤ 146096 := by
    have hn' : (n : Int) = z + 306 - era * 146097 := by
      rw [hn, Int.toNat_of_nonneg]; omega
    omega
  obtain ⟨hm11, hmoff, hd1, hdlen, hrecon⟩ := doe_decomp n hn96
  obtain ⟨hy399, hc2, hc3⟩ := natYoeOf_covers n hn96
  set Y := natYoeOf n with hY
  set MP := natMpOf n with hMP
  set DD := natDOf n with hDD
  clear_value Y MP DD
  clear hmoff hrecon hc2 hc3 hY hMP hDD
  clear_value n
  have hiff : isLeap ((Y : Int) + era * 400 + 1) = true ↔ lenYoe Y = 366 := by
    rw [isLeap_iff]
    unfold lenYoe
    split_ifs with hc <;> omega
  unfold shiftedMonthLen at hdlen
  refine ⟨?_, ?_, ?_, ?_⟩
  · split_ifs <;> omega
  · split_ifs <;> omega
  · omega
  · simp only [daysInMonth]
    rcases Nat.lt_or_ge MP 10 with h10 | h10
    · rw [if_pos (show ((MP : Int)) < 10 by omega)]
      rw [if_neg (show ¬((MP : Int) + 3 ≤ 2) by omega)]
      rw [if_neg (show ¬((MP : Int) + 3 = 2) by omega)]
      split_ifs at hdlen ⊢ <;> omega
    · rw [if_neg (show ¬((MP : Int)) < 10 by omega)]
      rw [if_pos (show ((MP : Int) - 9 ≤ 2) by omega)]
      rcases (show MP = 10 ∨ MP = 11 by omega) with h10' | h11'
      · rw [if_neg (show ¬((MP : Int) - 9 = 2) by rw [h10']; norm_num)]
        split_ifs at hdlen ⊢ <;> omega
      · rw [if_pos (show ((MP : Int) - 9 = 2) by rw [h11']; norm_num)]
        rw [if_pos h11'] at hdlen
        simp only [hiff]
        split_ifs at hdlen ⊢ <;> omega

/-- Valid civil triples round-trip through their day number. -/
theorem civilFromDays_daysFromCivil (y m d : Int) (hm1 : 1 ≤ m) (hm12 : m ≤ 12)
    (hd1 : 1 ≤ d) (hdm : d ≤ daysInMonth y m) :
    civilFromDays (daysFromCivil y m d) = (y, m, d) := by
  set y2 := if m ≤ 2 then y - 1 else y with hy2
  clear_value y2
  set era := y2 / 400 with hera
  have hyoeI : 0 ≤ y2 - era * 400 ∧ y2 - era * 400 ≤ 399 := by
    constructor <;> omega
  set yoeN := (y2 - era * 400).toNat with hyoeN
  have hyoe' : (yoeN : Int) = y2 - era * 400 := by
    rw [hyoeN, Int.toNat_of_nonneg hyoeI.1]
  have hyoe399 : yoeN ≤ 399 := by omega
  set mpN := (if m ≤ 2 then m + 9 else m - 3).toNat with hmpN
  have hmp' : (mpN : Int) = if m ≤ 2 then m + 9 else m - 3 := by
    rw [hmpN, Int.toNat_of_nonneg]
    split_ifs <;> omega
  have hmp11 : mpN ≤ 11 := by split_ifs at hmp' <;> omega
  set dN := d.toNat with hdN
  have hd' : (dN : Int) = d := by rw [hdN, Int.toNat_of_nonneg]; omega
  have hdN1 : 1 ≤ dN := by omega
  have hvalid : dN ≤ shiftedMonthLen yoeN mpN := by
    by_cases hm2 : m = 2
    · have hmp11' : mpN = 11 := by
        rw [if_pos (by omega)] at hmp'
        omega
      unfold shiftedMonthLen
      rw [if_pos hmp11']
      unfold daysInMonth at hdm
      rw [if_pos hm2] at hdm
      have hyy : y = era * 400 + (yoeN : Int) + 1 := by
        rw [if_pos (by omega : m ≤ 2)] at hy2
        omega
      have hiff : isLeap y = true ↔ lenYoe yoeN = 366 := by
        rw [isLeap_iff]
        unfold lenYoe
        split_ifs with hc <;> omega
      simp only [← hiff]
      split_ifs at hdm ⊢ <;> omega
    · unfold daysInMonth at hdm
      rw [if_neg hm2] at hdm
      unfold shiftedMonthLen lenYoe
      split_ifs at hmp' hdm ⊢ <;> omega
  obtain ⟨hF96, hFy, hFm, hFd⟩ := natF_decomp yoeN mpN dN hyoe399 hmp11 hdN1 hvalid
  have hFval : (natF yoeN mpN dN : Int) =
      365 * (yoeN : Int) + (yoeN : Int) / 4 - (yoeN : Int) / 100 +
        (153 * (mpN : Int) + 2) / 5 + ((dN : Int) - 1) := by
    have hFeq : natF yoeN mpN dN = natStart yoeN + natMOff mpN + dN - 1 := rfl
    unfold natStart natMOff at hFeq
    omega
  have hz : daysFromCivil y m d = era * 146097 + (natF yoeN mpN dN : Int) - 306 := by
    simp only [daysFromCivil]
    rw [show (m - 1) / 12 = 0 by omega, show (m - 1) % 12 = m - 1 by omega]
    rw [show y + 0 = y by ring, show m - 1 + 1 = m by ring]
    rw [← hy2, ← hera]
    rw [show (m + 9) % 12 = (mpN : Int) by split_ifs at hmp' <;> omega]
    rw [show y2 - era * 400 = (yoeN : Int) from hyoe'.symm]
    omega
  rw [hz]
  simp only [civilFromDays]
  rw [show era * 146097 + (natF yoeN mpN dN : Int) - 306 + 306 =
    era * 146097 + (natF yoeN mpN dN : Int) by ring]
  rw [show (era * 146097 + (natF yoeN mpN dN : Int)) / 146097 = era by omega]
  rw [show era * 146097 + (natF yoeN mpN dN : Int) - era * 146097 =
    (natF yoeN mpN dN : Int) by ring]
  rw [Int.toNat_natCast]
  rw [hFy, hFm, hFd]
  simp only [Prod.mk.injEq]
  refine ⟨?_, ?_, ?_⟩ <;> split_ifs at hy2 hmp' ⊢ <;> omega

/-! ### `time.Time` operations used by the service -/

/-- The zero `time.Time` (midnight of 0001-01-01). -/
def zeroTime : GoTime := ⟨0, 0⟩

/-- Go `time.Date(y, m, d, 0, 0, 0, 0, loc)`: start of the (normalized) civil day. -/
def GoTime.date (y m d : Int) : GoTime := ⟨daysFromCivil y m d, 0⟩

/-- `t.AddDate(years, months, days)`: Go re-derives the civil date of `t` and
calls `time.Date` on the shifted triple, keeping the time of day. -/
def GoTime.addDate (t : GoTime) (years months days : Int) : GoTime :=
  ⟨daysFromCivil (civYear t.day + years) (civMonth t.day + months) (civDay t.day + days), t.tod⟩

/-- `t.Add(k * 24 * time.Hour)` for a whole number of days (used by the demo
dataset): shifts the instant, which in the fixed zero-offset location moves
the day number and keeps the time of day. -/
def GoTime.addDays (t : GoTime) (k : Int) : GoTime := ⟨t.day + k, t.tod⟩

/-- `t.Weekday()`: Sunday = 0.  Day 0 (0001-01-01) is a Monday. -/
def GoTime.weekday (t : GoTime) : Int := (t.day + 1) % 7

/-- `t.Day()`: civil day-of-month. -/
def GoTime.dayOfMonth (t : GoTime) : Int := civDay t.day

theorem addDate_days (t : GoTime) (k : Int) : t.addDate 0 0 k = ⟨t.day + k, t.tod⟩ := by
  simp only [GoTime.addDate, GoTime.mk.injEq, add_zero]
  refine ⟨?_, trivial⟩
  have h1 := daysFromCivil_civilFromDays t.day
  have h2 := daysFromCivil_linear (civYear t.day) (civMonth t.day) (civDay t.day + k)
  have h3 := daysFromCivil_linear (civYear t.day) (civMonth t.day) (civDay t.day)
  omega

/-! ### String utilities (`strings` / `strconv`) -/

/-- ASCII whitespace, as stripped by `strings.TrimSpace` on the ASCII input
the repeat-spec grammar uses. -/
def isSpaceChar (c : Char) : Bool :=
  c = ' ' || c = '\t' || c = '\n' || c = '\r' || c = '\x0b' || c = '\x0c'

/-- `strings.TrimSpace`. -/
def goTrim (s : String) : String :=
  ((s.data.dropWhile isSpaceChar).reverse.dropWhile isSpaceChar).reverse.asString

/-- Split a character list at commas, keeping empty fields, as
`strings.Split(s, ",")` does. -/
def splitCommaChars : List Char → List (List Char)
  | [] => [[]]
  | c :: rest =>
    match splitCommaChars rest with
    | [] => [[]]
    | g :: gs => if c = ',' then [] :: g :: gs else (c :: g) :: gs

/-- `strings.Split(s, ",")`. -/
def commaTokens (s : String) : List String :=
  (splitCommaChars s.data).map List.asString

/-- ASCII decimal digits (the range test `'0' <= c && c <= '9'` of
`strconv`, written as an enumeration). -/
def isDigitChar (c : Char) : Bool :=
  c = '0' || c = '1' || c = '2' || c = '3' || c = '4' ||
    c = '5' || c = '6' || c = '7' || c = '8' || c = '9'

/-- One step of decimal accumulation: a non-digit anywhere poisons the parse. -/
def digitsStep (acc : Option Nat) (c : Char) : Option Nat :=
  match acc with
  | none => none
  | some n => if isDigitChar c then some (n * 10 + (c.toNat - 48)) else none

/-- Value of a nonempty all-digit string, `none` otherwise. -/
def digitsVal (l : List Char) : Option Nat :=
  if l.isEmpty then none else l.foldl digitsStep (some 0)

/-- `strconv.Atoi`: optional sign followed by at least one digit.  The 64-bit
range check is omitted: every caller only compares the result against the
interval [1, 31], so out-of-range tokens are rejected on either reading. -/
def goAtoi (s : String) : Option Int :=
  match s.data with
  | '+' :: rest => (digitsVal rest).map fun n => (n : Int)
  | '-' :: rest => (digitsVal rest).map fun n => -(n : Int)
  | l => (digitsVal l).map fun n => (n : Int)

/-- `strings.ToLower` (ASCII). -/
def goToLower (s : String) : String := (s.data.map Char.toLower).asString

/-! ### The repeat-specification grammar (`convertToWeekDay`,
`validateRepeatString`, `calculateNextAppearDate`) -/

/-- `convertToWeekDay`: parse a weekday name or abbreviation,
case-insensitively, into Go's `time.Weekday` numbering (Sunday = 0). -/
def convertToWeekDay (day : String) : Option Int :=
  match goToLower day with
  | "mon" | "monday" => some 1
  | "tue" | "tuesday" => some 2
  | "wed" | "wednesday" => some 3
  | "thu" | "thursday" => some 4
  | "fri" | "friday" => some 5
  | "sat" | "saturday" => some 6
  | "sun" | "sunday" => some 0
  | _ => none

/-- The two error shapes produced by `validateRepeatString`. -/
inductive RepeatErr where
  | invalidDay (num : Int)
  | invalidWeekday (tok : String)
deriving DecidableEq, Repr

/-- The token loop of `validateRepeatString`: first offending token wins. -/
def validateParts : List String → Option RepeatErr
  | [] => none
  | p :: rest =>
    let q := goTrim p
    if q = "" then validateParts rest
    else
      match goAtoi q with
      | some num =>
        if num < 1 ∨ 31 < num then some (RepeatErr.invalidDay num) else validateParts rest
      | none =>
        match convertToWeekDay q with
        | some _ => validateParts rest
        | none => some (RepeatErr.invalidWeekday q)

/-- `validateRepeatString`: `none` means the spec is accepted. -/
def validateRepeatString (repeatTime : String) : Option RepeatErr :=
  if repeatTime = "" then none else validateParts (commaTokens repeatTime)

/-- Candidate date for a day-of-month token: the `date`-th of the current
month if it has not passed yet, otherwise of the next month (both built with
`time.Date`, hence normalized). -/
def dayTokenCandidate (now : GoTime) (date : Int) : GoTime :=
  if date ≥ civDay now.day then
    GoTime.date (civYear now.day) (civMonth now.day) date
  else
    (GoTime.date (civYear now.day) (civMonth now.day) date).addDate 0 1 0

/-- Candidate date for a weekday token: the next strictly future day with
that weekday, at start of day. -/
def weekdayCandidate (now : GoTime) (weekday : Int) : GoTime :=
  let delta0 := weekday - now.weekday
  let delta := if delta0 ≤ 0 then delta0 + 7 else delta0
  let nt := now.addDate 0 0 delta
  GoTime.date (civYear nt.day) (civMonth nt.day) (civDay nt.day)

/-- Candidate produced by one trimmed token of the repeat spec (`none` when
the token is empty or unrecognized, in which case the loop skips it). -/
def tokenCandidate (now : GoTime) (tok : String) : Option GoTime :=
  let q := goTrim tok
  if q = "" then none
  else
    match goAtoi q with
    | some date => some (dayTokenCandidate now date)
    | none =>
      match convertToWeekDay q with
      | some w => some (weekdayCandidate now w)
      | none => none

/-- `calculateNextAppearDate`: fold the candidates of all tokens with the
strict-minimum update of the source loop, starting from the fallback
`now.AddDate(1, 0, 0)`.  The Go function's error result is always `nil`. -/
def calculateNextAppearDate (now : GoTime) (repeatTime : String) : GoTime × Option RepeatErr :=
  let next := (commaTokens repeatTime).foldl
    (fun acc tok =>
      match tokenCandidate now tok with
      | none => acc
      | some c => if acc.after c then c else acc)
    (now.addDate 1 0 0)
  (next, none)

/-! ### The transaction data model (`models.Transaction`) and the store

`TransactionsService.transactions` is `map[string]map[string]models.Transaction`
(user → transaction id → transaction), modelled as nested association lists.
`NextAppearDate` is a `time.Time` whose zero value means "unset". -/

/-- `models.IncomeCategory`. -/
def IncomeCategory : String := "Доходы"

/-- `models.Transaction`. -/
structure Transaction where
  id : String
  amount : ℚ
  title : String
  category : String
  date : GoTime
  nextAppearDate : GoTime
  repeatTime : String
deriving DecidableEq, Repr

/-- One user's transaction map. -/
abbrev UserTxs := List (String × Transaction)

/-- The store: user id → that user's transaction map. -/
abbrev Store := List (String × UserTxs)

/-- Go map assignment `m[k] = v`: replace in place, or append a new key. -/
def alistInsert {β : Type} (k : String) (v : β) : List (String × β) → List (String × β)
  | [] => [(k, v)]
  | (k', v') :: rest => if k' = k then (k, v) :: rest else (k', v') :: alistInsert k v rest

/-- Go `delete(m, k)`. -/
def alistErase {β : Type} (k : String) : List (String × β) → List (String × β)
  | [] => []
  | (k', v') :: rest => if k' = k then rest else (k', v') :: alistErase k rest

/-- `getInitialTransactions`: the fixed demo dataset, built around the
current instant (`time.Now()`).  The second entry's struct literal omits
`RepeatTime`, so it gets the zero value `""`. -/
def getInitialTransactions (now : GoTime) : UserTxs :=
  [("c38bcbd2-e3c5-4a03-9001-bfcf763fbbdf",
    { id := "c38bcbd2-e3c5-4a03-9001-bfcf763fbbdf", amount := 100, title := "Вода в зале",
      category := "Еда", date := now.addDays (-2), nextAppearDate := zeroTime,
      repeatTime := "" }),
   ("21867866-21d3-4846-bb5e-c56fbabec4f9",
    { id := "21867866-21d3-4846-bb5e-c56fbabec4f9", amount := 100, title := "Кино",
      category := "Развлечения", date := now.addDays (-3), nextAppearDate := zeroTime,
      repeatTime := "" }),
   ("a4075928-12c4-44e9-ac2a-0cf4230d4575",
    { id := "a4075928-12c4-44e9-ac2a-0cf4230d4575", amount := 1000, title := "Зарплата",
      category := "Доходы", date := now.addDays (-7),
      nextAppearDate := now.addDate 0 1 0,
      repeatTime := toString (civDay now.day) })]

/-- The date-window filter of the query loops: a transaction is kept when
each set bound is respected (`IsZero` bounds are ignored). -/
def passesDateFilter (fromDate toDate : GoTime) (t : Transaction) : Bool :=
  !(!fromDate.isZero && t.date.before fromDate) && !(!toDate.isZero && t.date.after toDate)

/-- The category filter of `GetTransactions`: an empty filter keeps
everything, otherwise the transaction's category must be listed. -/
def passesCategoryFilter (categories : List String) (t : Transaction) : Bool :=
  categories.isEmpty || categories.contains t.category

/-- The filtering loop of `GetTransactions` (the source appends either via
the empty-filter shortcut branch or after the membership scan; both reduce to
this predicate). -/
def filterTransactions (categories : List String) (fromDate toDate : GoTime)
    (txs : List Transaction) : List Transaction :=
  txs.filter fun t => passesDateFilter fromDate toDate t && passesCategoryFilter categories t

/-- Deterministic stand-in for `sort.Slice(filtered, less i j = Date_i.After(Date_j))`:
insertion sort by date, newest first (`sort.Slice` fixes no tie order). -/
def insertByDateDesc (t : Transaction) : List Transaction → List Transaction
  | [] => [t]
  | u :: rest => if t.date.after u.date then t :: u :: rest else u :: insertByDateDesc t rest

/-- Sort newest-first. -/
def sortByDateDesc (l : List Transaction) : List Transaction := l.foldr insertByDateDesc []

/-- `totalPages := int(math.Ceil(float64(count) / float64(pageSize)))`: for
the sizes the API admits (`pageSize ≥ 1` and counts far below 2^52) the
float computation is the exact integer ceiling, modelled directly. -/
def goTotalPages (count pageSize : Int) : Int :=
  if 0 < pageSize then (count + pageSize - 1) / pageSize else 0

/-- `models.TransactionsResponse`. -/
structure TransactionsResponse where
  currentPage : Int
  totalPages : Int
  data : List Transaction
deriving DecidableEq, Repr

/-- `TransactionsService.GetTransactions`.  On an unknown user the source
seeds the store with the demo data, but keeps filtering the
`userTransactions` variable it read *before* seeding (a nil map), so the
first call's response is computed over the empty view; `now` is the current
instant used by the seeding. -/
def getTransactions (now : GoTime) (store : Store) (userID : String)
    (categories : List String) (fromDate toDate : GoTime) (page pageSize : Int) :
    TransactionsResponse × Store :=
  let old := store.lookup userID
  let store' := match old with
    | none => alistInsert userID (getInitialTransactions now) store
    | some _ => store
  let src := (old.getD []).map Prod.snd
  let filtered := sortByDateDesc (filterTransactions categories fromDate toDate src)
  let n : Int := filtered.length
  let totalPages := goTotalPages n pageSize
  let start := (page - 1) * pageSize
  if start ≥ n then (⟨page, totalPages, []⟩, store')
  else (⟨page, totalPages, (filtered.drop start.toNat).take pageSize.toNat⟩, store')

/-- `TransactionsService.GetAllTransactions` (same stale-view seeding
behaviour as `GetTransactions`, date filter only, no pagination). -/
def getAllTransactions (now : GoTime) (store : Store) (userID : String)
    (fromDate toDate : GoTime) : List Transaction × Store :=
  let old := store.lookup userID
  let store' := match old with
    | none => alistInsert userID (getInitialTransactions now) store
    | some _ => store
  let src := (old.getD []).map Prod.snd
  (sortByDateDesc (src.filter (passesDateFilter fromDate toDate)), store')

/-- `TransactionsService.CreateTransaction`, after the `time.Parse` step (a
parse failure returns an error without touching the store and is not
modelled; parsed `"2006-01-02"` dates are midnights).  `newID` is the fresh
`uuid.New().String()`; the result is `none` exactly when the repeat spec is
rejected. -/
def createTransaction (now : GoTime) (store : Store) (userID newID : String)
    (amount : ℚ) (title category : String) (date : GoTime) (repeatTime : String) :
    Option (Store × String) :=
  match validateRepeatString repeatTime with
  | some _ => none
  | none =>
    let t0 : Transaction :=
      { id := newID, amount := amount, title := title, category := category,
        date := date, nextAppearDate := zeroTime, repeatTime := repeatTime }
    let t1 := if repeatTime ≠ "" then
        { t0 with nextAppearDate := (calculateNextAppearDate date repeatTime).1 }
      else t0
    let userMap := match store.lookup userID with
      | none => getInitialTransactions now
      | some m => m
    some (alistInsert userID (alistInsert newID t1 userMap) store, newID)

/-- `TransactionsService.DeleteTransaction`: silently a no-op for an unknown
user or id. -/
def deleteTransaction (store : Store) (userID id : String) : Store :=
  match store.lookup userID with
  | none => store
  | some m => alistInsert userID (alistErase id m) store

/-- The selection test of `ProcessAllRecurringTransactions`. -/
def matchesToday (today : GoTime) (t : Transaction) : Bool :=
  !t.nextAppearDate.isZero && t.nextAppearDate.truncateDay == today && t.repeatTime != ""

/-- The new transaction spawned for one recurring original (its
`NextAppearDate` is always set: `calculateNextAppearDate` never errors). -/
def spawnTransaction (today : GoTime) (newID : String) (orig : Transaction) : Transaction :=
  { id := newID, amount := orig.amount, title := orig.title, category := orig.category,
    date := today, nextAppearDate := (calculateNextAppearDate today orig.repeatTime).1,
    repeatTime := orig.repeatTime }

/-- Per-user body of `ProcessAllRecurringTransactions`: collect the matching
transactions, then for each one insert the spawned copy under a fresh uuid
and overwrite the original with its repeat spec cleared.  `freshIDs` supplies
the `uuid.New()` results in order. -/
def processUser (today : GoTime) (freshIDs : List String) (txs : UserTxs) : UserTxs :=
  let toProcess := (txs.map Prod.snd).filter (matchesToday today)
  (toProcess.zip freshIDs).foldl
    (fun acc ot =>
      alistInsert ot.1.id { ot.1 with repeatTime := "" }
        (alistInsert ot.2 (spawnTransaction today ot.2 ot.1) acc))
    txs

/-- `ProcessAllRecurringTransactions`, for all users; `today` is
`time.Now().Truncate(24h)` and `freshIDs` the per-user uuid supply. -/
def processAllRecurringTransactions (today : GoTime) (freshIDs : String → List String)
    (store : Store) : Store :=
  store.map fun u => (u.1, processUser today (freshIDs u.1) u.2)

/-- The per-transaction copy of `GetBackupData`: the struct literal lists
every field of `models.Transaction` except `RepeatTime`, which therefore gets
the zero value `""`. -/
def backupTransaction (t : Transaction) : Transaction :=
  { id := t.id, amount := t.amount, title := t.title, category := t.category,
    date := t.date, nextAppearDate := t.nextAppearDate, repeatTime := "" }

/-- `TransactionsService.GetBackupData`. -/
def getBackupData (store : Store) : Store :=
  store.map fun u => (u.1, u.2.map fun kt => (kt.1, backupTransaction kt.2))

/-- `TransactionsService.GetBackupFileName`. -/
def getBackupFileName : String := "transactions"

/-! ### The statistics aggregator (`StatisticsService.calculateSpendingCurve`)

Dates are grouped and reported through their `"2006-01-02"` rendering; in the
fixed location that rendering is injective on day numbers, so the embedding
keys the maps and the output by the day number itself. -/

/-- `models.SpendingCurveInfo` (`date` carries the day number behind the
formatted string). -/
structure SpendingCurveInfo where
  averageSpending : ℚ
  currentSpending : ℚ
  date : Int
deriving DecidableEq, Repr

/-- `n` consecutive day numbers starting at `startDay`. -/
def datesFrom (startDay : Int) : Nat → List Int
  | 0 => []
  | n + 1 => startDay :: datesFrom (startDay + 1) n

/-- Number of iterations of the date loop
`for !currentDate.After(toDate) { ...; currentDate = currentDate.AddDate(0,0,1) }`:
each step advances one day keeping the time of day (`addDate_days`), so the
loop emits the days from `fromDate.day` while `⟨day, fromDate.tod⟩ ≤ toDate`. -/
def periodLen (fromDate toDate : GoTime) : Nat :=
  (if fromDate.tod ≤ toDate.tod then toDate.day - fromDate.day + 1
   else toDate.day - fromDate.day).toNat

/-- The list of day numbers the statistics loops iterate over. -/
def periodDates (fromDate toDate : GoTime) : List Int :=
  datesFrom fromDate.day (periodLen fromDate toDate)

/-- `StatisticsService.calculateSpendingCurve` as a function of the period's
transactions and the full history (`GetAllTransactions` with zero bounds).
The Go code accumulates `expensesByDate` and `transactionsByDate` maps by
iteration; the final map contents are the per-key sums and groups used here. -/
def calculateSpendingCurve (periodTxs allTxs : List Transaction)
    (fromDate toDate : GoTime) : List SpendingCurveInfo :=
  let allExpenseTransactions := allTxs.filter fun t => t.category != IncomeCategory
  let expensesByDate : Int → ℚ := fun d =>
    (((allExpenseTransactions.filter fun t => t.date.day == d).map Transaction.amount)).sum
  let transactionsByDate : Int → List Transaction := fun d =>
    periodTxs.filter fun t => t.date.day == d
  (periodDates fromDate toDate).map fun d =>
    let currentSpending :=
      ((((transactionsByDate d).filter fun t => t.category != IncomeCategory)).map
        Transaction.amount).sum
    let averageSpending := if expensesByDate d > 0 then expensesByDate d else 0
    ⟨averageSpending, currentSpending, d⟩

/-! ### C8: validation of the repeat-specification grammar -/

theorem toLower_digit {c : Char} (h : isDigitChar c = true) : Char.toLower c = c := by
  simp only [isDigitChar, Bool.or_eq_true, decide_eq_true_eq] at h
  rcases h with ((((((((rfl | rfl) | rfl) | rfl) | rfl) | rfl) | rfl) | rfl) | rfl) | rfl <;> rfl

theorem foldl_digitsStep_none : ∀ (l : List Char), l.foldl digitsStep none = none := by
  intro l
  induction l with
  | nil => rfl
  | cons x xs ih => simpa [digitsStep] using ih

theorem digitsVal_head {c : Char} {l : List Char} {n : Nat}
    (h : digitsVal (c :: l) = some n) : isDigitChar c = true := by
  by_contra hc
  simp only [digitsVal, List.isEmpty_cons, List.foldl_cons, digitsStep] at h
  rw [if_neg hc] at h
  simp only [Bool.false_eq_true, if_false] at h
  rw [foldl_digitsStep_none l] at h
  cases h

/-- The first character (after lowercasing) of a token recognized by
`convertToWeekDay`. -/
theorem convertToWeekDay_head {s : String} {w : Int} (h : convertToWeekDay s = some w) :
    ∃ c rest, s.data = c :: rest ∧
      (Char.toLower c = 'm' ∨ Char.toLower c = 't' ∨ Char.toLower c = 'w' ∨
        Char.toLower c = 'f' ∨ Char.toLower c = 's') := by
  unfold convertToWeekDay at h
  split at h <;> rename_i heq <;> first
    | (have hdata := congrArg String.data heq
       simp only [goToLower, List.asString] at hdata
       cases hs : s.data with
       | nil => rw [hs] at hdata; simp at hdata
       | cons c rest =>
         rw [hs] at hdata
         simp only [List.map_cons, String.data] at hdata
         refine ⟨c, rest, rfl, ?_⟩
         have hc := congrArg List.head? hdata
         simp at hc
         simp [hc])
    | (cases h)

/-- A token that parses as an integer is never a weekday name. -/
theorem goAtoi_some_weekday_none {s : String} {n : Int} (h : goAtoi s = some n) :
    convertToWeekDay s = none := by
  cases hW : convertToWeekDay s with
  | none => rfl
  | some w =>
    exfalso
    obtain ⟨c, rest, hdata, hc⟩ := convertToWeekDay_head hW
    unfold goAtoi at h
    rw [hdata] at h
    have hfix : Char.toLower c = c := by
      rcases (show c = '+' ∨ c = '-' ∨ isDigitChar c = true by
        by_cases h1 : c = '+'
        · exact Or.inl h1
        · by_cases h2 : c = '-'
          · exact Or.inr (Or.inl h2)
          · refine Or.inr (Or.inr ?_)
            -- in the default arm, the whole list must be digits
            rcases hd : digitsVal (c :: rest) with _ | m
            · -- then goAtoi would be none in every arm
              exfalso
              revert h
              split <;> intro h
              · rename_i heq
                cases heq
                exact absurd rfl h1
              · rename_i heq
                cases heq
                exact absurd rfl h2
              · rw [hd] at h
                cases h
            · exact digitsVal_head hd) with rfl | hrest
      · rfl
      · rcases hrest with rfl | hdig
        · rfl
        · exact toLower_digit hdig
    rw [hfix] at hc
    -- but then the digits after the sign (or the head itself) must parse,
    -- while the head is one of the weekday letters
    rcases hc with rfl | rfl | rfl | rfl | rfl <;> revert h <;>
      split <;> intro h <;> first
        | (rename_i heq; cases heq)
        | (rcases hd2 : digitsVal ('m' :: rest) with _ | m2 <;> rw [hd2] at h
           · cases h
           · have := digitsVal_head hd2; cases this)
        | (rcases hd2 : digitsVal ('t' :: rest) with _ | m2 <;> rw [hd2] at h
           · cases h
           · have := digitsVal_head hd2; cases this)
        | (rcases hd2 : digitsVal ('w' :: rest) with _ | m2 <;> rw [hd2] at h
           · cases h
           · have := digitsVal_head hd2; cases this)
        | (rcases hd2 : digitsVal ('f' :: rest) with _ | m2 <;> rw [hd2] at h
           · cases h
           · have := digitsVal_head hd2; cases this)
        | (rcases hd2 : digitsVal ('s' :: rest) with _ | m2 <;> rw [hd2] at h
           · cases h
           · have := digitsVal_head hd2; cases this)

/-- Claim-side token validity, following the specification's words: the
trimmed token is an integer in [1,31], or a weekday name or abbreviation. -/
def specTokenOk (t : String) : Bool :=
  (match goAtoi t with
   | some n => decide (1 ≤ n ∧ n ≤ 31)
   | none => false) ||
    (convertToWeekDay t).isSome

theorem validateParts_none_iff (l : List String) :
    validateParts l = none ↔
      (l.all fun tok => goTrim tok == "" || specTokenOk (goTrim tok)) = true := by
  induction l with
  | nil => simp [validateParts]
  | cons p rest ih =>
    simp only [validateParts, List.all_cons, Bool.and_eq_true, ← ih]
    by_cases hq : goTrim p = ""
    · simp [hq]
    · rw [if_neg hq]
      have hbeq : (goTrim p == "") = false := by
        simp [hq]
      cases hA : goAtoi (goTrim p) with
      | some num =>
        dsimp only
        have hWnone := goAtoi_some_weekday_none hA
        by_cases hr : num < 1 ∨ 31 < num
        · rw [if_pos hr]
          simp only [specTokenOk, hA, hWnone, hbeq, Option.isSome_none, Bool.or_false,
            Bool.false_or]
          constructor
          · intro h; cases h
          · intro h
            have := h.1
            simp only [decide_eq_true_eq] at this
            omega
        · rw [if_neg hr]
          simp only [specTokenOk, hA, hWnone, hbeq, Option.isSome_none, Bool.or_false,
            Bool.false_or]
          constructor
          · intro h
            exact ⟨by simp only [decide_eq_true_eq]; omega, h⟩
          · intro h; exact h.2
      | none =>
        dsimp only
        cases hW : convertToWeekDay (goTrim p) with
        | some w =>
          dsimp only
          simp only [specTokenOk, hA, hW, hbeq, Option.isSome_some, Bool.or_true,
            Bool.false_or]
          constructor
          · intro h; exact ⟨trivial, h⟩
          · intro h; exact h.2
        | none =>
          dsimp only
          simp only [specTokenOk, hA, hW, hbeq, Option.isSome_none, Bool.or_false,
            Bool.false_or]
          constructor
          · intro h; cases h
          · intro h; cases h.1

/-- C8 (counterexample): the claim says a non-empty spec is accepted exactly
when every comma-separated token, after trimming, is an integer in [1,31] or a
weekday name.  The spec `","` is a counterexample: `validateRepeatString`
accepts it, yet neither of its two (empty) tokens satisfies the claimed
condition — empty tokens are silently skipped by the loop. -/
theorem c8_counterexample :
    validateRepeatString "," = none ∧
      ¬((commaTokens ",").all fun tok => specTokenOk (goTrim tok)) = true := by
  constructor
  · decide
  · decide

/-- C8 (amended): `validateRepeatString` accepts the empty string; it rejects
"32" naming the number and "mon, 15, xyz" naming the token "xyz"; and it
accepts a non-empty spec exactly when every comma-separated token, after
trimming, is empty (skipped) or an integer in [1,31] or a case-insensitive
weekday name or abbreviation. -/
theorem c8_validate_amended :
    validateRepeatString "" = none ∧
    validateRepeatString "32" = some (RepeatErr.invalidDay 32) ∧
    validateRepeatString "mon, 15, xyz" = some (RepeatErr.invalidWeekday "xyz") ∧
    ∀ s : String, s ≠ "" →
      (validateRepeatString s = none ↔
        ((commaTokens s).all fun tok => goTrim tok == "" || specTokenOk (goTrim tok)) = true) := by
  refine ⟨by decide, by decide, by decide, ?_⟩
  intro s hs
  rw [validateRepeatString, if_neg hs]
  exact validateParts_none_iff (commaTokens s)

theorem c8_validate_amended_witness : validateRepeatString "mon,15" = none :=
  (c8_validate_amended.2.2.2 "mon,15" (by decide)).mpr (by decide)

/-! ### C10: pagination of GetTransactions -/

theorem length_insertByDateDesc (t : Transaction) (l : List Transaction) :
    (insertByDateDesc t l).length = l.length + 1 := by
  induction l with
  | nil => rfl
  | cons u rest ih =>
    simp only [insertByDateDesc]
    split_ifs <;> simp [ih]

theorem length_sortByDateDesc (l : List Transaction) :
    (sortByDateDesc l).length = l.length := by
  induction l with
  | nil => rfl
  | cons t rest ih => simp [sortByDateDesc, List.foldr_cons, length_insertByDateDesc, ← ih]
    
/-- The filtered-and-sorted working set of one `GetTransactions` call (for an
unknown user the call works over the stale empty view, so this is `[]`). -/
def queryFiltered (store : Store) (userID : String) (categories : List String)
    (fromDate toDate : GoTime) : List Transaction :=
  sortByDateDesc (filterTransactions categories fromDate toDate
    (((store.lookup userID).getD []).map Prod.snd))

/-- A store holding 25 matching transactions for user "u". -/
def store25 : Store :=
  [("u", (List.range 25).map fun i =>
    (toString i,
     { id := toString i, amount := 1, title := "", category := "c",
       date := ⟨(i : Int), 0⟩, nextAppearDate := zeroTime, repeatTime := "" }))]

theorem ceilDiv_bounds (n ps : Int) (h : 0 < ps) (hn : 0 ≤ n) :
    n ≤ (n + ps - 1) / ps * ps ∧ (n + ps - 1) / ps * ps < n + ps := by
  have hdiv := Int.ediv_add_emod (n + ps - 1) ps
  have h1 := Int.emod_nonneg (n + ps - 1) (by omega : ps ≠ 0)
  have h2 := Int.emod_lt_of_pos (n + ps - 1) h
  constructor <;> linarith

/-- C10: for every store, filter set, `page ≥ 1` and `pageSize ≥ 1`,
`GetTransactions` returns `currentPage = page` and
`totalPages = ceil(filteredCount / pageSize)` (characterized exactly by the
two ceiling inequalities); a page beyond range returns an empty `data` list
with that same `totalPages` and no error, and an in-range page returns
`min(pageSize, filteredCount - (page-1)*pageSize)` items.  In particular,
with 25 matching transactions and `pageSize = 10`: `totalPages = 3`, page 3
returns 5 items, and page 4 returns 0 items with `totalPages` still 3. -/
theorem c10_pagination :
    (∀ (now : GoTime) (store : Store) (userID : String) (categories : List String)
        (fromDate toDate : GoTime) (page pageSize : Int),
      1 ≤ page → 1 ≤ pageSize →
      (getTransactions now store userID categories fromDate toDate page pageSize).1.currentPage
          = page ∧
      (getTransactions now store userID categories fromDate toDate page pageSize).1.totalPages
          = ((queryFiltered store userID categories fromDate toDate).length + pageSize - 1)
              / pageSize ∧
      ((queryFiltered store userID categories fromDate toDate).length : Int) ≤
        (getTransactions now store userID categories fromDate toDate page pageSize).1.totalPages
          * pageSize ∧
      (getTransactions now store userID categories fromDate toDate page pageSize).1.totalPages
          * pageSize <
        (queryFiltered store userID categories fromDate toDate).length + pageSize ∧
      (((queryFiltered store userID categories fromDate toDate).length : Int) ≤
          (page - 1) * pageSize →
        (getTransactions now store userID categories fromDate toDate page pageSize).1.data
          = []) ∧
      ((page - 1) * pageSize <
          ((queryFiltered store userID categories fromDate toDate).length : Int) →
        ((getTransactions now store userID categories fromDate toDate page pageSize).1.data.length
            : Int)
          = min pageSize ((queryFiltered store userID categories fromDate toDate).length
              - (page - 1) * pageSize))) ∧
    (getTransactions ⟨0, 0⟩ store25 "u" [] zeroTime zeroTime 1 10).1.totalPages = 3 ∧
    (getTransactions ⟨0, 0⟩ store25 "u" [] zeroTime zeroTime 3 10).1.data.length = 5 ∧
    (getTransactions ⟨0, 0⟩ store25 "u" [] zeroTime zeroTime 4 10).1.data = [] ∧
    (getTransactions ⟨0, 0⟩ store25 "u" [] zeroTime zeroTime 4 10).1.totalPages = 3 := by
  refine ⟨?_, by decide, by decide, by decide, by decide⟩
  intro now store userID categories fromDate toDate page pageSize hp hps
  have hq : queryFiltered store userID categories fromDate toDate =
      sortByDateDesc (filterTransactions categories fromDate toDate
        (((store.lookup userID).getD []).map Prod.snd)) := rfl
  simp only [getTransactions, queryFiltered, goTotalPages, if_pos (by omega : (0:Int) < pageSize)]
  set fl := sortByDateDesc (filterTransactions categories fromDate toDate
    (((store.lookup userID).getD []).map Prod.snd)) with hfl
  have hb := ceilDiv_bounds (fl.length : Int) pageSize (by omega) (by omega)
  split_ifs with hcut
  · dsimp only
    refine ⟨rfl, rfl, hb.1, hb.2, fun _ => rfl, fun hlt => by omega⟩
  · dsimp only
    refine ⟨rfl, rfl, hb.1, hb.2, fun hle => by omega, fun hlt => ?_⟩
    simp only [List.length_take, List.length_drop]
    have hps : (pageSize.toNat : Int) = pageSize := Int.toNat_of_nonneg (by omega)
    have hstI : (((page - 1) * pageSize).toNat : Int) = (page - 1) * pageSize :=
      Int.toNat_of_nonneg (mul_nonneg (by omega) (by omega))
    omega

theorem c10_pagination_witness :
    (getTransactions ⟨0, 0⟩ store25 "u" [] zeroTime zeroTime 3 10).1.totalPages
      = ((queryFiltered store25 "u" [] zeroTime zeroTime).length + 10 - 1) / 10 :=
  (c10_pagination.1 ⟨0, 0⟩ store25 "u" [] zeroTime zeroTime 3 10 (by decide) (by decide)).2.1

/-! ### C7: the next-occurrence computation is the minimum over candidates -/

/-- Instant order as a proposition. -/
def GoTime.le (a b : GoTime) : Prop :=
  a.day < b.day ∨ (a.day = b.day ∧ a.tod ≤ b.tod)

theorem after_iff {a b : GoTime} :
    a.after b = true ↔ (b.day < a.day ∨ (b.day = a.day ∧ b.tod < a.tod)) := by
  simp [GoTime.after, GoTime.ltb, Bool.or_eq_true, Bool.and_eq_true, decide_eq_true_eq,
    beq_iff_eq]

/-- The candidates a spec's tokens produce, in token order. -/
def tokenCandidates (now : GoTime) (repeatTime : String) : List GoTime :=
  (commaTokens repeatTime).filterMap (tokenCandidate now)

/-- The loop body of `calculateNextAppearDate` folds `gmin` over the
candidates (keeping the accumulator on ties, as the strict `After` test does). -/
def gmin (acc c : GoTime) : GoTime := if acc.after c then c else acc

theorem calcNext_eq_foldl_gmin (now : GoTime) (repeatTime : String) :
    calculateNextAppearDate now repeatTime =
      ((tokenCandidates now repeatTime).foldl gmin (now.addDate 1 0 0), none) := by
  simp only [calculateNextAppearDate, tokenCandidates]
  congr 1
  generalize now.addDate 1 0 0 = init
  induction commaTokens repeatTime generalizing init with
  | nil => rfl
  | cons tok rest ih =>
    simp only [List.foldl_cons, List.filterMap_cons]
    cases h : tokenCandidate now tok with
    | none => exact ih init
    | some c => simp only [List.foldl_cons, gmin]; exact ih _

theorem foldl_gmin_mem (l : List GoTime) (init : GoTime) :
    l.foldl gmin init = init ∨ l.foldl gmin init ∈ l := by
  induction l generalizing init with
  | nil => exact Or.inl rfl
  | cons c rest ih =>
    simp only [List.foldl_cons, gmin]
    split_ifs with h
    · rcases ih c with h1 | h1
      · exact Or.inr (by simp [h1])
      · exact Or.inr (List.mem_cons_of_mem _ h1)
    · rcases ih init with h1 | h1
      · exact Or.inl h1
      · exact Or.inr (List.mem_cons_of_mem _ h1)

theorem le_total_gtime (a b : GoTime) : GoTime.le a b ∨ GoTime.le b a := by
  simp only [GoTime.le]
  omega

theorem foldl_gmin_le (l : List GoTime) (init : GoTime) :
    GoTime.le (l.foldl gmin init) init ∧ ∀ c ∈ l, GoTime.le (l.foldl gmin init) c := by
  induction l generalizing init with
  | nil => exact ⟨Or.inr ⟨rfl, le_refl _⟩, by simp⟩
  | cons c rest ih =>
    simp only [List.foldl_cons, gmin]
    split_ifs with h
    · rw [after_iff] at h
      obtain ⟨h1, h2⟩ := ih c
      refine ⟨?_, ?_⟩
      · simp only [GoTime.le] at h1 ⊢
        omega
      · intro x hx
        rcases List.mem_cons.mp hx with rfl | hx
        · exact h1
        · exact h2 x hx
    · rw [after_iff] at h
      obtain ⟨h1, h2⟩ := ih init
      refine ⟨h1, ?_⟩
      intro x hx
      rcases List.mem_cons.mp hx with rfl | hx
      · simp only [GoTime.le] at h1 ⊢
        omega
      · exact h2 x hx

theorem tokenCandidate_none_of_trim_empty {now : GoTime} {tok : String}
    (h : goTrim tok = "") : tokenCandidate now tok = none := by
  simp [tokenCandidate, h]

/-- C7: `calculateNextAppearDate` never errors, and its result is exactly the
minimum of the candidates produced by the spec's tokens together with the
fallback `reference + 1 year`: it is one of those values and is below all of
them.  A spec with no effective tokens (empty, or only whitespace and commas)
yields exactly the fallback. -/
theorem c7_minimum :
    ∀ (now : GoTime) (repeatTime : String),
      (calculateNextAppearDate now repeatTime).2 = none ∧
      (calculateNextAppearDate now repeatTime).1 ∈
        now.addDate 1 0 0 :: tokenCandidates now repeatTime ∧
      (∀ c ∈ now.addDate 1 0 0 :: tokenCandidates now repeatTime,
        GoTime.le (calculateNextAppearDate now repeatTime).1 c) ∧
      ((∀ tok ∈ commaTokens repeatTime, goTrim tok = "") →
        (calculateNextAppearDate now repeatTime).1 = now.addDate 1 0 0) ∧
      calculateNextAppearDate now "" = (now.addDate 1 0 0, none) := by
  intro now repeatTime
  rw [calcNext_eq_foldl_gmin]
  obtain ⟨hle, hall⟩ := foldl_gmin_le (tokenCandidates now repeatTime) (now.addDate 1 0 0)
  refine ⟨rfl, ?_, ?_, ?_, ?_⟩
  · rcases foldl_gmin_mem (tokenCandidates now repeatTime) (now.addDate 1 0 0) with h | h
    · simp [h]
    · exact List.mem_cons_of_mem _ h
  · intro c hc
    rcases List.mem_cons.mp hc with rfl | hc
    · exact hle
    · exact hall c hc
  · intro hempty
    have : tokenCandidates now repeatTime = [] := by
      simp only [tokenCandidates, List.filterMap_eq_nil_iff]
      intro tok htok
      exact tokenCandidate_none_of_trim_empty (hempty tok htok)
    rw [this]
    rfl
  · rw [calcNext_eq_foldl_gmin]
    rfl

theorem c7_minimum_witness :
    (calculateNextAppearDate ⟨739255, 0⟩ " , ,").1 = GoTime.addDate ⟨739255, 0⟩ 1 0 0 :=
  (c7_minimum ⟨739255, 0⟩ " , ,").2.2.2.1 (by decide)

/-! ### C6: weekday-token candidates -/

theorem daysFromCivil_add_year (y m d : Int) (h1 : 1 ≤ m) (h2 : m ≤ 12) :
    daysFromCivil y m d + 365 ≤ daysFromCivil (y + 1) m d ∧
      daysFromCivil (y + 1) m d ≤ daysFromCivil y m d + 366 := by
  simp only [daysFromCivil]
  rw [show (m - 1) / 12 = 0 by omega, show (m - 1) % 12 = m - 1 by omega]
  constructor <;> split_ifs <;> omega

theorem addDate_year_lb (t : GoTime) : t.day + 365 ≤ (t.addDate 1 0 0).day := by
  simp only [GoTime.addDate, add_zero]
  obtain ⟨hm1, hm2, _, _⟩ := civilFromDays_range t.day
  have h := daysFromCivil_add_year (civYear t.day) (civMonth t.day) (civDay t.day) hm1 hm2
  have h2 := daysFromCivil_civilFromDays t.day
  omega

theorem convertToWeekDay_range {s : String} {w : Int} (h : convertToWeekDay s = some w) :
    0 ≤ w ∧ w < 7 := by
  unfold convertToWeekDay at h
  split at h <;> cases h <;> omega

theorem goWeekday_range (t : GoTime) : 0 ≤ t.weekday ∧ t.weekday < 7 := by
  simp only [GoTime.weekday]
  omega

theorem weekdayCandidate_eq (now : GoTime) (w : Int) :
    weekdayCandidate now w =
      ⟨now.day + (if w - now.weekday ≤ 0 then w - now.weekday + 7 else w - now.weekday), 0⟩ := by
  simp only [weekdayCandidate, addDate_days, GoTime.date]
  rw [daysFromCivil_civilFromDays]

/-- C6: for a weekday token `w`, the candidate lies strictly between 1 and 7
days after the reference date, at start of day, and falls on the requested
weekday; when `w` is the reference's own weekday the candidate is exactly 7
days later, never the reference day itself.  On a single-token spec,
`calculateNextAppearDate` returns exactly this candidate. -/
theorem c6_weekday :
    ∀ (now : GoTime) (w : Int) (tok spec : String),
      convertToWeekDay (goTrim tok) = some w →
      commaTokens spec = [tok] →
      now.day + 1 ≤ (weekdayCandidate now w).day ∧
      (weekdayCandidate now w).day ≤ now.day + 7 ∧
      (weekdayCandidate now w).tod = 0 ∧
      (weekdayCandidate now w).day ≠ now.day ∧
      GoTime.weekday (weekdayCandidate now w) = w ∧
      (w = now.weekday → (weekdayCandidate now w).day = now.day + 7) ∧
      (calculateNextAppearDate now spec).1 = weekdayCandidate now w := by
  intro now w tok spec hW hspec
  have hw7 := convertToWeekDay_range hW
  have hnw7 := goWeekday_range now
  have hceq := weekdayCandidate_eq now w
  have hday : (weekdayCandidate now w).day =
      now.day + (if w - now.weekday ≤ 0 then w - now.weekday + 7 else w - now.weekday) := by
    rw [hceq]
  have htod : (weekdayCandidate now w).tod = 0 := by rw [hceq]
  refine ⟨?_, ?_, htod, ?_, ?_, ?_, ?_⟩
  · rw [hday]; split_ifs <;> omega
  · rw [hday]; split_ifs <;> omega
  · rw [hday]; split_ifs <;> omega
  · simp only [GoTime.weekday, hday, GoTime.weekday] at *
    split_ifs <;> omega
  · intro heq; rw [hday, heq]; simp
  · have hAtoi : goAtoi (goTrim tok) = none := by
      cases h : goAtoi (goTrim tok) with
      | none => rfl
      | some n => rw [goAtoi_some_weekday_none h] at hW; cases hW
    have htrim : goTrim tok ≠ "" := by
      intro h0
      rw [h0] at hW
      have : convertToWeekDay "" = none := by decide
      rw [this] at hW
      cases hW
    have hcand : tokenCandidate now tok = some (weekdayCandidate now w) := by
      simp only [tokenCandidate, if_neg htrim, hAtoi, hW]
    rw [calcNext_eq_foldl_gmin]
    simp only [tokenCandidates, hspec, List.filterMap_cons, hcand, List.filterMap_nil,
      List.foldl_cons, List.foldl_nil, gmin]
    rw [if_pos ?_]
    rw [after_iff]
    have hyear := addDate_year_lb now
    left
    rw [hday]
    split_ifs <;> omega

theorem c6_weekday_witness :
    (calculateNextAppearDate ⟨daysFromCivil 2025 10 11, 0⟩ "sat").1 =
      weekdayCandidate ⟨daysFromCivil 2025 10 11, 0⟩ 6 :=
  (c6_weekday ⟨daysFromCivil 2025 10 11, 0⟩ 6 "sat" "sat" (by decide) (by decide)).2.2.2.2.2.2

/-! ### C5: day-of-month-token candidates -/

set_option maxHeartbeats 1000000 in
theorem daysFromCivil_month_step (y m d : Int) (h1 : 1 ≤ m) (h2 : m ≤ 12) :
    daysFromCivil y (m + 1) d = daysFromCivil y m d + daysInMonth y m := by
  simp only [daysFromCivil, daysInMonth, isLeap_iff]
  interval_cases m <;> split_ifs <;> omega

/-- Wrap-around of month 13 into January of the next year. -/
theorem daysFromCivil_month13 (y d : Int) :
    daysFromCivil y 13 d = daysFromCivil (y + 1) 1 d := by
  simp only [daysFromCivil]
  norm_num

/-- C5 (counterexample): for reference date 2025-02-10 and token 31 (which is
`≥` the reference's day-of-month 10), the claim predicts a result in the
reference month February with day-of-month 31; the code normalizes February
31 and returns March 3. -/
theorem c5_counterexample :
    goAtoi (goTrim "31") = some 31 ∧
    civDay (daysFromCivil 2025 2 10) ≤ 31 ∧
    commaTokens "31" = ["31"] ∧
    civMonth (calculateNextAppearDate ⟨daysFromCivil 2025 2 10, 0⟩ "31").1.day = 3 ∧
    civDay (calculateNextAppearDate ⟨daysFromCivil 2025 2 10, 0⟩ "31").1.day = 3 := by
  refine ⟨by decide, by decide, by decide, by decide, by decide⟩

/-- C5 (amended): for a day-of-month token `d ∈ [1,31]`, the candidate is the
`d`-th of the reference month when `d` has not passed yet and `d` fits that
month, and the `d`-th of the following month when `d` has passed and `d` fits
that month (first of the next year after December); in both cases at start of
day.  When `d` exceeds the target month's length the `time.Date`
normalization rolls the date over into the month after (the counterexample).
On a single-token spec, `calculateNextAppearDate` returns exactly the
candidate. -/
theorem c5_day_token :
    ∀ (now : GoTime) (d : Int) (tok spec : String),
      goAtoi (goTrim tok) = some d →
      commaTokens spec = [tok] →
      1 ≤ d → d ≤ 31 →
      (civDay now.day ≤ d → d ≤ daysInMonth (civYear now.day) (civMonth now.day) →
        dayTokenCandidate now d =
          ⟨daysFromCivil (civYear now.day) (civMonth now.day) d, 0⟩ ∧
        civYear (dayTokenCandidate now d).day = civYear now.day ∧
        civMonth (dayTokenCandidate now d).day = civMonth now.day ∧
        civDay (dayTokenCandidate now d).day = d ∧
        (dayTokenCandidate now d).tod = 0) ∧
      (d < civDay now.day →
        ∀ y' m' : Int,
          y' = (if civMonth now.day = 12 then civYear now.day + 1 else civYear now.day) →
          m' = (if civMonth now.day = 12 then 1 else civMonth now.day + 1) →
          d ≤ daysInMonth y' m' →
          civYear (dayTokenCandidate now d).day = y' ∧
          civMonth (dayTokenCandidate now d).day = m' ∧
          civDay (dayTokenCandidate now d).day = d ∧
          (dayTokenCandidate now d).tod = 0) ∧
      (calculateNextAppearDate now spec).1 = dayTokenCandidate now d := by
  intro now d tok spec hA hspec hd1 hd31
  obtain ⟨hm1, hm2, hD1, hDm⟩ := civilFromDays_range now.day
  have hL1 := daysFromCivil_civilFromDays now.day
  refine ⟨?_, ?_, ?_⟩
  · intro hge hfits
    have hcand : dayTokenCandidate now d =
        ⟨daysFromCivil (civYear now.day) (civMonth now.day) d, 0⟩ := by
      simp only [dayTokenCandidate, if_pos (by omega : d ≥ civDay now.day), GoTime.date]
    have hrt := civilFromDays_daysFromCivil (civYear now.day) (civMonth now.day) d
      hm1 hm2 hd1 hfits
    refine ⟨hcand, ?_, ?_, ?_, by rw [hcand]⟩ <;>
      rw [hcand] <;> simp only [civYear, civMonth, civDay] at hrt ⊢ <;> rw [hrt]
  · intro hlt y' m' hy' hm' hfits
    have hvalid : d ≤ daysInMonth (civYear now.day) (civMonth now.day) := by omega
    have hrt := civilFromDays_daysFromCivil (civYear now.day) (civMonth now.day) d
      hm1 hm2 hd1 hvalid
    simp only [civYear, civMonth, civDay] at *
    have hcand1 : (dayTokenCandidate now d).day =
        daysFromCivil (civilFromDays now.day).1 ((civilFromDays now.day).2.1 + 1) d := by
      simp only [dayTokenCandidate, civYear, civMonth, civDay, GoTime.date, GoTime.addDate]
      rw [if_neg (by omega)]
      simp only [hrt, add_zero]
    have hcand2 : (dayTokenCandidate now d).tod = 0 := by
      simp only [dayTokenCandidate, civYear, civMonth, civDay, GoTime.date, GoTime.addDate]
      rw [if_neg (by omega)]
    have hday : (dayTokenCandidate now d).day = daysFromCivil y' m' d := by
      rw [hcand1]
      by_cases h12 : (civilFromDays now.day).2.1 = 12
      · rw [hy', hm', if_pos h12, if_pos h12, h12]
        norm_num [daysFromCivil_month13]
      · rw [hy', hm', if_neg h12, if_neg h12]
    have hm'1 : 1 ≤ m' := by rw [hm']; split_ifs <;> omega
    have hm'12 : m' ≤ 12 := by rw [hm']; split_ifs <;> omega
    have hrt' := civilFromDays_daysFromCivil y' m' d hm'1 hm'12 hd1 hfits
    rw [hday]
    rw [hrt']
    exact ⟨rfl, rfl, rfl, hcand2⟩
  · have htrim : goTrim tok ≠ "" := by
      intro h0
      rw [h0] at hA
      cases hA
    have hcand : tokenCandidate now tok = some (dayTokenCandidate now d) := by
      simp only [tokenCandidate, if_neg htrim, hA]
    rw [calcNext_eq_foldl_gmin]
    simp only [tokenCandidates, hspec, List.filterMap_cons, hcand, List.filterMap_nil,
      List.foldl_cons, List.foldl_nil, gmin]
    rw [if_pos ?_]
    rw [after_iff]
    have hyear := addDate_year_lb now
    left
    -- candidate is at most 30 days past the reference in either branch
    have hlin1 := daysFromCivil_linear (civYear now.day) (civMonth now.day) d
    have hlin2 := daysFromCivil_linear (civYear now.day) (civMonth now.day) (civDay now.day)
    have hmstep := daysFromCivil_month_step (civYear now.day) (civMonth now.day) d hm1 hm2
    have hmlen : daysInMonth (civYear now.day) (civMonth now.day) ≤ 31 := by
      simp only [daysInMonth]
      split_ifs <;> omega
    simp only [dayTokenCandidate]
    split_ifs with hge
    · simp only [GoTime.date]
      omega
    · have hvalid : d ≤ daysInMonth (civYear now.day) (civMonth now.day) := by omega
      have hrt := civilFromDays_daysFromCivil (civYear now.day) (civMonth now.day) d
        hm1 hm2 hd1 hvalid
      simp only [GoTime.date, GoTime.addDate, civYear, civMonth, civDay] at *
      rw [hrt]
      simp only [add_zero] at *
      omega

theorem c5_day_token_witness :
    (calculateNextAppearDate ⟨daysFromCivil 2025 1 5, 0⟩ "10").1 =
      dayTokenCandidate ⟨daysFromCivil 2025 1 5, 0⟩ 10 :=
  (c5_day_token ⟨daysFromCivil 2025 1 5, 0⟩ 10 "10" "10" (by decide) (by decide) (by decide)
    (by decide)).2.2

/-! ### C9: the spending curve -/

/-- Claim-side quantity: total non-income amount recorded on day `d`. -/
def sumNonIncomeOn (txs : List Transaction) (d : Int) : ℚ :=
  ((txs.filter fun t => t.category != IncomeCategory && t.date.day == d).map
    Transaction.amount).sum

theorem filter_day_cat (l : List Transaction) (d : Int) :
    ((l.filter fun t => t.date.day == d).filter fun t => t.category != IncomeCategory) =
      l.filter fun t => t.category != IncomeCategory && t.date.day == d := by
  induction l with
  | nil => rfl
  | cons t rest ih =>
    by_cases h1 : t.date.day = d <;> by_cases h2 : t.category = IncomeCategory <;>
      simp [h1, h2, ih]

theorem filter_cat_day (l : List Transaction) (d : Int) :
    ((l.filter fun t => t.category != IncomeCategory).filter fun t => t.date.day == d) =
      l.filter fun t => t.category != IncomeCategory && t.date.day == d := by
  induction l with
  | nil => rfl
  | cons t rest ih =>
    by_cases h1 : t.date.day = d <;> by_cases h2 : t.category = IncomeCategory <;>
      simp [h1, h2, ih]

/-- Demonstration transaction with a negative amount (no sign validation
exists on create). -/
def negTx : Transaction :=
  { id := "x", amount := -5, title := "t", category := "c", date := ⟨10, 0⟩,
    nextAppearDate := zeroTime, repeatTime := "" }

/-- C9 (counterexample): with a single historical transaction of amount −5 on
the curve's day, the all-time same-date non-income total is −5, but the curve
reports `averageSpending = 0`: the code copies the total only when it is
positive, so the claimed equality with the total fails. -/
theorem c9_counterexample :
    calculateSpendingCurve [] [negTx] ⟨10, 0⟩ ⟨10, 0⟩ =
      [{ averageSpending := 0, currentSpending := 0, date := 10 }] ∧
    sumNonIncomeOn [negTx] 10 = -5 := by
  constructor
  · simp only [calculateSpendingCurve, periodDates, periodLen, datesFrom]
    norm_num [negTx, IncomeCategory, datesFrom]
    intro h
    simp +decide [negTx, IncomeCategory] at h
  · simp [sumNonIncomeOn, negTx, IncomeCategory]

/-- C9 (amended): every spending-curve entry is keyed by a day of the
requested period; its `currentSpending` is the sum of non-income amounts of
the period transactions on that day (as claimed), and its `averageSpending`
is the all-time non-income total recorded on that same day when that total is
positive, and `0` otherwise (the code clamps non-positive totals to zero). -/
theorem c9_spending_curve :
    ∀ (periodTxs allTxs : List Transaction) (fromDate toDate : GoTime),
      (calculateSpendingCurve periodTxs allTxs fromDate toDate).map SpendingCurveInfo.date =
        periodDates fromDate toDate ∧
      ∀ e ∈ calculateSpendingCurve periodTxs allTxs fromDate toDate,
        e.currentSpending = sumNonIncomeOn periodTxs e.date ∧
        e.averageSpending =
          (if 0 < sumNonIncomeOn allTxs e.date then sumNonIncomeOn allTxs e.date else 0) ∧
        e.date ∈ periodDates fromDate toDate := by
  intro periodTxs allTxs fromDate toDate
  constructor
  · simp only [calculateSpendingCurve, List.map_map]
    generalize periodDates fromDate toDate = ds
    induction ds with
    | nil => rfl
    | cons d rest ih => simpa using ih
  · intro e he
    simp only [calculateSpendingCurve, List.mem_map] at he
    obtain ⟨d, hd, rfl⟩ := he
    refine ⟨?_, ?_, hd⟩
    · simp only [sumNonIncomeOn, filter_day_cat]
    · simp only [sumNonIncomeOn, filter_cat_day]

theorem c9_spending_curve_witness :
    ({ averageSpending := 0, currentSpending := 0, date := 10 } :
        SpendingCurveInfo).currentSpending = sumNonIncomeOn [] 10 :=
  ((c9_spending_curve [] [] ⟨10, 0⟩ ⟨10, 0⟩).2
    { averageSpending := 0, currentSpending := 0, date := 10 } (by decide)).1

/-! ### C4: demo-data seeding on the first query for an unknown user -/

/-- `alistInsert` installs the new binding at its key. -/
theorem lookup_alistInsert_self {β : Type} (k : String) (v : β) (l : List (String × β)) :
    (alistInsert k v l).lookup k = some v := by
  induction l with
  | nil => simp [alistInsert, List.lookup]
  | cons p rest ih =>
    obtain ⟨k', v'⟩ := p
    by_cases h : k' = k
    · subst h; simp [alistInsert, List.lookup]
    · simp only [alistInsert, if_neg h, List.lookup]
      have : (k == k') = false := by simp [Ne.symm h]
      rw [this]
      exact ih

/-- `alistInsert` leaves the bindings of every other key unchanged. -/
theorem lookup_alistInsert_ne {β : Type} (k k' : String) (v : β) (l : List (String × β))
    (h : k' ≠ k) : (alistInsert k v l).lookup k' = l.lookup k' := by
  induction l with
  | nil =>
    simp only [alistInsert, List.lookup]
    have : (k' == k) = false := by simp [h]
    rw [this]
  | cons p rest ih =>
    obtain ⟨a, b⟩ := p
    by_cases ha : a = k
    · subst ha
      simp only [alistInsert, if_pos rfl, List.lookup]
      have h1 : (k' == a) = false := by simp [h]
      rw [h1]
    · simp only [alistInsert, if_neg ha, List.lookup]
      by_cases hk : k' = a
      · subst hk; simp
      · have : (k' == a) = false := by simp [hk]
        rw [this]
        exact ih

/-- With both bounds unset (the zero time) the date filter keeps everything. -/
theorem passesDateFilter_zero (t : Transaction) :
    passesDateFilter zeroTime zeroTime t = true := by
  simp [passesDateFilter, zeroTime, GoTime.isZero]

/-- C4 (counterexample): the claim says the first `GetTransactions` call for an
unknown user computes its response over the demo dataset.  In the source the
store is seeded, but the query keeps filtering the `userTransactions` map read
*before* seeding (still nil), so the first call for the unknown user `"u"`
returns `totalPages = 0` and no data — although the seeded demo dataset has 3
entries, over which the claim would predict `totalPages = goTotalPages 3 10 = 1`
and a non-empty page. -/
theorem c4_counterexample :
    (getTransactions ⟨739255, 0⟩ [] "u" [] zeroTime zeroTime 1 10).1 =
      ⟨1, 0, []⟩ ∧
    (((getTransactions ⟨739255, 0⟩ [] "u" [] zeroTime zeroTime 1 10).2.lookup
        "u").getD []).length = 3 ∧
    goTotalPages 3 10 = 1 := by decide

/-- C4 (amended): for a user not present in the store, the first
`GetTransactions` call does seed the store with the fixed demo dataset, but its
own response is computed over the stale empty view: it returns the requested
page number, `totalPages = 0` and no data.  Only a subsequent call (here with no
filters and `pageSize ≥ 3`) sees the 3 demo transactions. -/
theorem c4_first_query (now : GoTime) (store : Store) (userID : String)
    (categories : List String) (fromDate toDate : GoTime) (page pageSize : Int)
    (h : store.lookup userID = none) :
    (getTransactions now store userID categories fromDate toDate page pageSize).1 =
      ⟨page, 0, []⟩ ∧
    (getTransactions now store userID categories fromDate toDate page pageSize).2.lookup
        userID = some (getInitialTransactions now) ∧
    (3 ≤ pageSize →
      (getTransactions now
          (getTransactions now store userID categories fromDate toDate page pageSize).2
          userID [] zeroTime zeroTime 1 pageSize).1.data.length = 3) := by
  have hzero : goTotalPages ((0 : Nat) : Int) pageSize = 0 := by
    simp only [goTotalPages]
    split_ifs with hp
    · simpa using Int.ediv_eq_zero_of_lt (by omega) (by omega)
    · rfl
  have hmain :
      getTransactions now store userID categories fromDate toDate page pageSize =
      (⟨page, 0, []⟩, alistInsert userID (getInitialTransactions now) store) := by
    simp only [getTransactions, h]
    simp only [Option.getD_none, List.map_nil, filterTransactions, List.filter_nil,
      sortByDateDesc, List.foldr_nil, List.length_nil, hzero]
    split_ifs with hs
    · rfl
    · simp
  refine ⟨by rw [hmain], ?_, ?_⟩
  · rw [hmain]
    exact lookup_alistInsert_self _ _ _
  · intro hps
    rw [hmain]
    simp only [getTransactions, lookup_alistInsert_self, Option.getD_some]
    have hfilter :
        filterTransactions [] zeroTime zeroTime
          ((getInitialTransactions now).map Prod.snd) =
        (getInitialTransactions now).map Prod.snd := by
      apply List.filter_eq_self.mpr
      intro t _
      simp [passesDateFilter_zero, passesCategoryFilter]
    rw [hfilter]
    have hlen : (sortByDateDesc ((getInitialTransactions now).map Prod.snd)).length = 3 := by
      rw [length_sortByDateDesc]
      simp [getInitialTransactions]
    split_ifs with hs
    · exfalso
      rw [hlen] at hs
      omega
    · simp only [List.length_take, List.length_drop, hlen]
      omega

theorem c4_first_query_witness :
    (([] : Store).lookup "u" = none) ∧
    ((getTransactions ⟨739255, 0⟩ [] "u" [] zeroTime zeroTime 1 10).1 = ⟨1, 0, []⟩ ∧
     (getTransactions ⟨739255, 0⟩ [] "u" [] zeroTime zeroTime 1 10).2.lookup "u" =
       some (getInitialTransactions ⟨739255, 0⟩) ∧
     (3 ≤ (10 : Int) →
       (getTransactions ⟨739255, 0⟩
           (getTransactions ⟨739255, 0⟩ [] "u" [] zeroTime zeroTime 1 10).2
           "u" [] zeroTime zeroTime 1 10).1.data.length = 3)) :=
  ⟨rfl, c4_first_query ⟨739255, 0⟩ [] "u" [] zeroTime zeroTime 1 10 rfl⟩

/-! ### C1: the backup round-trip -/

/-- Looking up a key through a value-mapped association list. -/
theorem lookup_map_values {β γ : Type} (f : β → γ) (k : String) (l : List (String × β)) :
    (l.map fun u => (u.1, f u.2)).lookup k = (l.lookup k).map f := by
  induction l with
  | nil => simp [List.lookup]
  | cons p rest ih =>
    obtain ⟨a, b⟩ := p
    simp only [List.map_cons, List.lookup]
    by_cases h : k = a
    · subst h; simp
    · have : (k == a) = false := by simp [h]
      rw [this]
      exact ih

/-- `backupTransaction` keeps the date, so insertion by date commutes with it. -/
theorem insertByDateDesc_map_backup (t : Transaction) (l : List Transaction) :
    insertByDateDesc (backupTransaction t) (l.map backupTransaction) =
      (insertByDateDesc t l).map backupTransaction := by
  induction l with
  | nil => rfl
  | cons u rest ih =>
    simp only [List.map_cons, insertByDateDesc]
    have hd : (backupTransaction t).date.after (backupTransaction u).date =
        t.date.after u.date := rfl
    rw [hd]
    split_ifs with h
    · simp
    · simp [ih]

/-- Sorting by date commutes with `backupTransaction`. -/
theorem sortByDateDesc_map_backup (l : List Transaction) :
    sortByDateDesc (l.map backupTransaction) = (sortByDateDesc l).map backupTransaction := by
  induction l with
  | nil => rfl
  | cons t rest ih =>
    simp only [List.map_cons, sortByDateDesc, List.foldr_cons]
    show insertByDateDesc (backupTransaction t) (sortByDateDesc (rest.map backupTransaction)) = _
    rw [ih]
    exact insertByDateDesc_map_backup t (sortByDateDesc rest)

/-- The query filters look only at date and category, both kept by
`backupTransaction`, so filtering commutes with it. -/
theorem filterTransactions_map_backup (cats : List String) (lo hi : GoTime)
    (l : List Transaction) :
    filterTransactions cats lo hi (l.map backupTransaction) =
      (filterTransactions cats lo hi l).map backupTransaction := by
  induction l with
  | nil => rfl
  | cons t rest ih =>
    simp only [List.map_cons, filterTransactions, List.filter_cons] at *
    have hp : (passesDateFilter lo hi (backupTransaction t) &&
        passesCategoryFilter cats (backupTransaction t)) =
        (passesDateFilter lo hi t && passesCategoryFilter cats t) := rfl
    rw [hp]
    split_ifs with h
    · simp only [List.map_cons, ih]
    · exact ih

/-- C1 (counterexample): the claim says querying the store rebuilt from
`GetBackupData` yields exactly the same results, every transaction field
included.  `GetBackupData` copies each transaction through a struct literal
that omits `RepeatTime`, so a stored transaction with spec `"10"` comes back
from `GetAllTransactions` with an empty spec after the round-trip: the two
query results differ. -/
theorem c1_counterexample :
    ¬((getAllTransactions ⟨739255, 0⟩
        (getBackupData [("u", [("t1",
          (⟨"t1", 5, "x", "c", ⟨739255, 0⟩, ⟨739260, 0⟩, "10"⟩ : Transaction))])])
        "u" zeroTime zeroTime).1 =
      (getAllTransactions ⟨739255, 0⟩
        [("u", [("t1",
          (⟨"t1", 5, "x", "c", ⟨739255, 0⟩, ⟨739260, 0⟩, "10"⟩ : Transaction))])]
        "u" zeroTime zeroTime).1) := by decide

/-- C1 (amended): the backup round-trip preserves every query result *up to
clearing the repeat spec*: `GetAllTransactions` on the rebuilt store returns
exactly the original items mapped through `backupTransaction` (same id, amount,
title, category, date and next-appear date, empty `RepeatTime`), and
`GetTransactions` returns the same current page and total pages with its page
data mapped the same way. -/
theorem c1_backup_roundtrip :
    ∀ (now : GoTime) (store : Store) (userID : String) (categories : List String)
      (lo hi : GoTime) (page pageSize : Int),
      (getAllTransactions now (getBackupData store) userID lo hi).1 =
        ((getAllTransactions now store userID lo hi).1).map backupTransaction ∧
      (getTransactions now (getBackupData store) userID categories lo hi
          page pageSize).1.currentPage =
        (getTransactions now store userID categories lo hi page pageSize).1.currentPage ∧
      (getTransactions now (getBackupData store) userID categories lo hi
          page pageSize).1.totalPages =
        (getTransactions now store userID categories lo hi page pageSize).1.totalPages ∧
      (getTransactions now (getBackupData store) userID categories lo hi
          page pageSize).1.data =
        ((getTransactions now store userID categories lo hi
            page pageSize).1.data).map backupTransaction := by
  intro now store userID categories lo hi page pageSize
  have hlk : (getBackupData store).lookup userID =
      (store.lookup userID).map fun txs => txs.map fun kt => (kt.1, backupTransaction kt.2) :=
    lookup_map_values _ _ _
  cases hs : store.lookup userID with
  | none =>
    rw [hs] at hlk
    rw [show (Option.map (fun txs : UserTxs =>
        txs.map fun kt => (kt.1, backupTransaction kt.2)) none) = none from rfl] at hlk
    refine ⟨?_, ?_, ?_, ?_⟩ <;>
      simp only [getAllTransactions, getTransactions, hlk, hs, Option.getD_none,
        List.map_nil, List.filter_nil, filterTransactions, sortByDateDesc,
        List.foldr_nil, List.length_nil] <;>
      split_ifs <;> simp
  | some txs =>
    rw [hs] at hlk
    rw [show (Option.map (fun txs : UserTxs =>
        txs.map fun kt => (kt.1, backupTransaction kt.2)) (some txs)) =
        some (txs.map fun kt => (kt.1, backupTransaction kt.2)) from rfl] at hlk
    have hsrc : ((txs.map fun kt => (kt.1, backupTransaction kt.2)).map Prod.snd) =
        (txs.map Prod.snd).map backupTransaction := by
      simp [List.map_map]
    have hfs : sortByDateDesc (filterTransactions categories lo hi
          ((txs.map fun kt => (kt.1, backupTransaction kt.2)).map Prod.snd)) =
        (sortByDateDesc (filterTransactions categories lo hi (txs.map Prod.snd))).map
          backupTransaction := by
      rw [hsrc, filterTransactions_map_backup, sortByDateDesc_map_backup]
    refine ⟨?_, ?_, ?_, ?_⟩
    · simp only [getAllTransactions, hlk, hs, Option.getD_some]
      rw [hsrc]
      have : (passesDateFilter lo hi) ∘ backupTransaction = passesDateFilter lo hi := rfl
      rw [List.filter_map, this, sortByDateDesc_map_backup]
    · simp only [getTransactions, hlk, hs, Option.getD_some, hfs, List.length_map]
      split_ifs <;> rfl
    · simp only [getTransactions, hlk, hs, Option.getD_some, hfs, List.length_map]
      split_ifs <;> rfl
    · simp only [getTransactions, hlk, hs, Option.getD_some, hfs, List.length_map]
      split_ifs with h
      · simp
      · simp [List.map_take, List.map_drop]

/-! ### C2: materializing recurring transactions -/

/-- Inserting an absent key appends the binding at the end. -/
theorem alistInsert_append_not_mem {β : Type} (k : String) (v : β) (l : List (String × β))
    (h : k ∉ l.map Prod.fst) : alistInsert k v l = l ++ [(k, v)] := by
  induction l with
  | nil => rfl
  | cons p rest ih =>
    obtain ⟨pk, pv⟩ := p
    simp only [List.map_cons, List.mem_cons, not_or] at h
    have hp : pk ≠ k := fun he => h.1 he.symm
    simp only [alistInsert, if_neg hp, List.cons_append]
    rw [ih h.2]

/-- Inserting a key present in the left part of an append stays in it. -/
theorem alistInsert_append_left {β : Type} (k : String) (v : β) (l1 l2 : List (String × β))
    (h : k ∈ l1.map Prod.fst) : alistInsert k v (l1 ++ l2) = alistInsert k v l1 ++ l2 := by
  induction l1 with
  | nil => simp at h
  | cons p rest ih =>
    obtain ⟨pk, pv⟩ := p
    simp only [List.map_cons, List.mem_cons] at h
    by_cases hp : pk = k
    · simp [alistInsert, hp]
    · have hr : k ∈ rest.map Prod.fst := by
        rcases h with h | h
        · exact absurd h.symm hp
        · exact h
      simp only [List.cons_append, alistInsert, if_neg hp]
      exact congrArg _ (ih hr)

/-- Inserting a present key keeps the key list unchanged. -/
theorem keys_alistInsert_mem {β : Type} (k : String) (v : β) (l : List (String × β))
    (h : k ∈ l.map Prod.fst) :
    (alistInsert k v l).map Prod.fst = l.map Prod.fst := by
  induction l with
  | nil => simp at h
  | cons p rest ih =>
    obtain ⟨pk, pv⟩ := p
    simp only [List.map_cons, List.mem_cons] at h
    by_cases hp : pk = k
    · simp [alistInsert, hp]
    · have hr : k ∈ rest.map Prod.fst := by
        rcases h with h | h
        · exact absurd h.symm hp
        · exact h
      simp only [alistInsert, if_neg hp, List.map_cons, ih hr]

/-- Over duplicate-free keys, inserting a present key rewrites exactly the
entry carrying it. -/
theorem alistInsert_eq_map {β : Type} (k : String) (v : β) (l : List (String × β))
    (hnd : (l.map Prod.fst).Nodup) (h : k ∈ l.map Prod.fst) :
    alistInsert k v l = l.map fun kt => if kt.1 = k then (k, v) else kt := by
  induction l with
  | nil => simp at h
  | cons p rest ih =>
    obtain ⟨pk, pv⟩ := p
    simp only [List.map_cons, List.nodup_cons] at hnd
    simp only [List.map_cons, List.mem_cons] at h
    by_cases hp : pk = k
    · subst hp
      simp only [alistInsert, if_pos rfl, List.map_cons, if_pos rfl, if_true, eq_self_iff_true]
      congr 1
      have hrest : ∀ kt ∈ rest, (if (kt : String × β).1 = pk then (pk, v) else kt) = id kt := by
        intro kt hkt
        simp only [id]
        rw [if_neg]
        intro he
        exact hnd.1 (he ▸ List.mem_map_of_mem Prod.fst hkt)
      rw [List.map_congr_left hrest, List.map_id]
    · have hr : k ∈ rest.map Prod.fst := by
        rcases h with h | h
        · exact absurd h.symm hp
        · exact h
      simp only [alistInsert, if_neg hp, List.map_cons, if_neg hp, ih hnd.2 hr]

/-- Over duplicate-free keys a key determines its value. -/
theorem value_eq_of_nodup {β : Type} {k : String} {a b : β} {l : List (String × β)}
    (hnd : (l.map Prod.fst).Nodup) (ha : (k, a) ∈ l) (hb : (k, b) ∈ l) : a = b := by
  induction l with
  | nil => simp at ha
  | cons p rest ih =>
    obtain ⟨pk, pv⟩ := p
    simp only [List.map_cons, List.nodup_cons] at hnd
    rcases List.mem_cons.mp ha with ha1 | ha1 <;> rcases List.mem_cons.mp hb with hb1 | hb1
    · injection ha1 with h1a h2a
      injection hb1 with h1b h2b
      exact h2a.trans h2b.symm
    · exfalso
      injection ha1 with h1a _
      exact hnd.1 (h1a ▸ List.mem_map_of_mem Prod.fst hb1)
    · exfalso
      injection hb1 with h1b _
      exact hnd.1 (h1b ▸ List.mem_map_of_mem Prod.fst ha1)
    · exact ih hnd.2 ha1 hb1

/-- The per-user loop of `ProcessAllRecurringTransactions`, run on an
accumulator split into the original entries `pre` and already-spawned entries
`sp`, clears the originals inside `pre` and appends all spawned copies after
`sp`, provided fresh ids are new and pairwise distinct. -/
theorem processFold_split (today : GoTime) :
    ∀ (ms : List (Transaction × String)) (pre sp : UserTxs),
      (∀ p ∈ ms, (p : Transaction × String).1.id ∈ pre.map Prod.fst) →
      (∀ p ∈ ms, (p : Transaction × String).2 ∉ pre.map Prod.fst) →
      (∀ p ∈ ms, (p : Transaction × String).2 ∉ sp.map Prod.fst) →
      (ms.map Prod.snd).Nodup →
      ms.foldl
        (fun acc ot =>
          alistInsert ot.1.id { ot.1 with repeatTime := "" }
            (alistInsert ot.2 (spawnTransaction today ot.2 ot.1) acc))
        (pre ++ sp) =
      (ms.foldl (fun a p => alistInsert p.1.id { p.1 with repeatTime := "" } a) pre) ++ sp ++
        ms.map (fun p => (p.2, spawnTransaction today p.2 p.1)) := by
  intro ms
  induction ms with
  | nil =>
    intro pre sp _ _ _ _
    simp
  | cons p rest ih =>
    intro pre sp hin hfp hfs hnd
    obtain ⟨m, f⟩ := p
    simp only [List.map_cons, List.nodup_cons] at hnd
    simp only [List.foldl_cons]
    have h1 : alistInsert f (spawnTransaction today f m) (pre ++ sp) =
        pre ++ sp ++ [(f, spawnTransaction today f m)] := by
      apply alistInsert_append_not_mem
      simp only [List.map_append, List.mem_append, not_or]
      exact ⟨hfp (m, f) (List.mem_cons_self _ _), hfs (m, f) (List.mem_cons_self _ _)⟩
    rw [h1, List.append_assoc]
    have hmid : m.id ∈ pre.map Prod.fst := hin (m, f) (List.mem_cons_self _ _)
    have h2 : alistInsert m.id { m with repeatTime := "" }
          (pre ++ (sp ++ [(f, spawnTransaction today f m)])) =
        alistInsert m.id { m with repeatTime := "" } pre ++
          (sp ++ [(f, spawnTransaction today f m)]) :=
      alistInsert_append_left _ _ _ _ hmid
    rw [h2]
    have hkeys' : (alistInsert m.id { m with repeatTime := "" } pre).map Prod.fst =
        pre.map Prod.fst := keys_alistInsert_mem _ _ _ hmid
    have h3 : ∀ q ∈ rest, (q : Transaction × String).1.id ∈
        (alistInsert m.id { m with repeatTime := "" } pre).map Prod.fst := by
      intro q hq
      rw [hkeys']
      exact hin q (List.mem_cons_of_mem _ hq)
    have h4 : ∀ q ∈ rest, (q : Transaction × String).2 ∉
        (alistInsert m.id { m with repeatTime := "" } pre).map Prod.fst := by
      intro q hq
      rw [hkeys']
      exact hfp q (List.mem_cons_of_mem _ hq)
    have h5 : ∀ q ∈ rest, (q : Transaction × String).2 ∉
        (sp ++ [(f, spawnTransaction today f m)]).map Prod.fst := by
      intro q hq
      simp only [List.map_append, List.mem_append, List.map_cons, List.map_nil,
        List.mem_singleton, not_or]
      refine ⟨hfs q (List.mem_cons_of_mem _ hq), ?_⟩
      intro he
      exact hnd.1 (he ▸ List.mem_map_of_mem Prod.snd hq)
    rw [ih _ _ h3 h4 h5 hnd.2]
    simp only [List.foldl_cons, List.map_cons]
    simp [List.append_assoc]

/-- Folding the original-clearing inserts over a duplicate-free map rewrites
exactly the entries whose id occurs among the processed originals. -/
theorem clearFold_eq_map :
    ∀ (ms : List Transaction) (l : UserTxs),
      (l.map Prod.fst).Nodup →
      (∀ m ∈ ms, ((m : Transaction).id, m) ∈ l) →
      (ms.map Transaction.id).Nodup →
      ms.foldl (fun a m => alistInsert m.id { m with repeatTime := "" } a) l =
        l.map fun kt => if kt.1 ∈ ms.map Transaction.id
          then (kt.1, { kt.2 with repeatTime := "" }) else kt := by
  intro ms
  induction ms with
  | nil =>
    intro l _ _ _
    simp
  | cons m rest ih =>
    intro l hnd hmem hmsnd
    simp only [List.map_cons, List.nodup_cons] at hmsnd
    simp only [List.foldl_cons]
    have hmemm : (m.id, m) ∈ l := hmem m (List.mem_cons_self _ _)
    have hmk : m.id ∈ l.map Prod.fst := List.mem_map_of_mem Prod.fst hmemm
    have hl' : alistInsert m.id { m with repeatTime := "" } l =
        l.map fun kt => if kt.1 = m.id then (kt.1, { kt.2 with repeatTime := "" }) else kt := by
      rw [alistInsert_eq_map _ _ _ hnd hmk]
      apply List.map_congr_left
      intro kt hkt
      by_cases h : kt.1 = m.id
      · rw [if_pos h, if_pos h]
        have hktl : (kt.1, kt.2) ∈ l := hkt
        have hv : kt.2 = m := value_eq_of_nodup hnd (h ▸ hktl) hmemm
        rw [hv, h]
      · rw [if_neg h, if_neg h]
    rw [hl']
    have hkeys' : ((l.map fun kt => if kt.1 = m.id
          then (kt.1, { kt.2 with repeatTime := "" }) else kt).map Prod.fst) =
        l.map Prod.fst := by
      rw [List.map_map]
      apply List.map_congr_left
      intro kt _
      simp only [Function.comp]
      by_cases h : kt.1 = m.id
      · rw [if_pos h]
      · rw [if_neg h]
    have hnd' : ((l.map fun kt => if kt.1 = m.id
          then (kt.1, { kt.2 with repeatTime := "" }) else kt).map Prod.fst).Nodup := by
      rw [hkeys']; exact hnd
    have hmem' : ∀ q ∈ rest, ((q : Transaction).id, q) ∈
        l.map fun kt => if kt.1 = m.id then (kt.1, { kt.2 with repeatTime := "" }) else kt := by
      intro q hq
      have hqid : q.id ≠ m.id := by
        intro he
        exact hmsnd.1 (he ▸ List.mem_map_of_mem Transaction.id hq)
      have : (if ((q.id, q) : String × Transaction).1 = m.id
          then (((q.id, q) : String × Transaction).1,
            { ((q.id, q) : String × Transaction).2 with repeatTime := "" })
          else (q.id, q)) = (q.id, q) := by
        rw [if_neg hqid]
      rw [← this]
      exact List.mem_map_of_mem _ (hmem q (List.mem_cons_of_mem _ hq))
    rw [ih _ hnd' hmem' hmsnd.2]
    rw [List.map_map]
    apply List.map_congr_left
    intro kt hkt
    simp only [Function.comp]
    by_cases h : kt.1 = m.id
    · rw [if_pos h]
      have hnotrest : kt.1 ∉ rest.map Transaction.id := h ▸ hmsnd.1
      rw [if_neg hnotrest]
      rw [if_pos (by simp [List.map_cons, h])]
    · rw [if_neg h]
      by_cases hr : kt.1 ∈ rest.map Transaction.id
      · rw [if_pos hr, if_pos (by simp [List.map_cons, hr])]
      · rw [if_neg hr, if_neg (by simp [List.map_cons, h, hr])]

/-- The right components of a zip form a sublist of the right input. -/
theorem zip_map_snd_sublist {α β : Type} :
    ∀ (as : List α) (bs : List β), ((as.zip bs).map Prod.snd).Sublist bs
  | [], _ => by simp
  | _ :: _, [] => by simp
  | a :: as, b :: bs => by
    simp only [List.zip_cons_cons, List.map_cons]
    exact (zip_map_snd_sublist as bs).cons₂ b

/-- Key-dependent version of `lookup_map_values`. -/
theorem lookup_map_values_dep {β γ : Type} (f : String → β → γ) (k : String)
    (l : List (String × β)) :
    (l.map fun u => (u.1, f u.1 u.2)).lookup k = (l.lookup k).map (f k) := by
  induction l with
  | nil => simp [List.lookup]
  | cons p rest ih =>
    obtain ⟨a, b⟩ := p
    simp only [List.map_cons, List.lookup]
    by_cases h : k = a
    · subst h; simp
    · have : (k == a) = false := by simp [h]
      rw [this]
      exact ih

/-- C2: for a user whose transaction map is well-formed (entries keyed by their
transaction id, duplicate-free keys, fresh uuids new and pairwise distinct, and
enough of them), `ProcessAllRecurringTransactions` rewrites the user's map to:
every transaction whose next-appear date falls today (and has a non-empty
repeat spec) gets its repeat spec cleared with all other fields (including its
next-appear date and date) untouched, all other transactions stay unchanged,
and exactly one spawned copy per matching original is appended — dated today,
with the original's amount, title, category and repeat spec, a fresh id and a
freshly computed next-appear date (`spawnTransaction`). -/
theorem c2_materialize (today : GoTime) (freshIDs : String → List String) (store : Store)
    (u : String) (txs : UserTxs)
    (hu : store.lookup u = some txs)
    (hid : ∀ kt ∈ txs, (kt : String × Transaction).2.id = kt.1)
    (hkeys : (txs.map Prod.fst).Nodup)
    (hfresh : (freshIDs u).Nodup)
    (hdisj : ∀ f ∈ freshIDs u, f ∉ txs.map Prod.fst)
    (hlen : ((txs.map Prod.snd).filter (matchesToday today)).length ≤ (freshIDs u).length) :
    (processAllRecurringTransactions today freshIDs store).lookup u =
      some (txs.map (fun kt => if matchesToday today kt.2 = true
          then (kt.1, { kt.2 with repeatTime := "" }) else kt) ++
        (((txs.map Prod.snd).filter (matchesToday today)).zip (freshIDs u)).map
          (fun p => (p.2, spawnTransaction today p.2 p.1))) := by
  have hlku : (processAllRecurringTransactions today freshIDs store).lookup u =
      (store.lookup u).map (fun t => processUser today (freshIDs u) t) :=
    lookup_map_values_dep (fun key t => processUser today (freshIDs key) t) u store
  rw [hlku, hu]
  show some (processUser today (freshIDs u) txs) = _
  congr 1
  have hmemtxs : ∀ m ∈ (txs.map Prod.snd).filter (matchesToday today),
      ((m : Transaction).id, m) ∈ txs := by
    intro m hm
    have hms : m ∈ txs.map Prod.snd := List.mem_of_mem_filter hm
    obtain ⟨kt, hkt, hkteq⟩ := List.mem_map.mp hms
    have : m.id = kt.1 := by rw [← hkteq]; exact hid kt hkt
    rw [this, ← hkteq]
    exact hkt
  have hin : ∀ p ∈ ((txs.map Prod.snd).filter (matchesToday today)).zip (freshIDs u),
      (p : Transaction × String).1.id ∈ txs.map Prod.fst := by
    intro p hp
    exact List.mem_map_of_mem Prod.fst (hmemtxs p.1 (List.of_mem_zip hp).1)
  have hfp : ∀ p ∈ ((txs.map Prod.snd).filter (matchesToday today)).zip (freshIDs u),
      (p : Transaction × String).2 ∉ txs.map Prod.fst := by
    intro p hp
    exact hdisj p.2 (List.of_mem_zip hp).2
  have hfs : ∀ p ∈ ((txs.map Prod.snd).filter (matchesToday today)).zip (freshIDs u),
      (p : Transaction × String).2 ∉ ([] : UserTxs).map Prod.fst := by
    simp
  have hsnd : ((((txs.map Prod.snd).filter (matchesToday today)).zip
      (freshIDs u)).map Prod.snd).Nodup :=
    (zip_map_snd_sublist _ _).nodup hfresh
  have hsplit := processFold_split today
    (((txs.map Prod.snd).filter (matchesToday today)).zip (freshIDs u)) txs []
    hin hfp hfs hsnd
  simp only [List.append_nil] at hsplit
  have hstep : processUser today (freshIDs u) txs =
      (((txs.map Prod.snd).filter (matchesToday today)).zip (freshIDs u)).foldl
        (fun acc ot =>
          alistInsert ot.1.id { ot.1 with repeatTime := "" }
            (alistInsert ot.2 (spawnTransaction today ot.2 ot.1) acc)) txs := rfl
  rw [hstep, hsplit]
  congr 1
  have hfst : (((txs.map Prod.snd).filter (matchesToday today)).zip
      (freshIDs u)).map Prod.fst = (txs.map Prod.snd).filter (matchesToday today) :=
    List.map_fst_zip _ _ hlen
  have hfoldpair : ∀ (ms : List (Transaction × String)) (init : UserTxs),
      ms.foldl (fun a p => alistInsert p.1.id { p.1 with repeatTime := "" } a) init =
      (ms.map Prod.fst).foldl
        (fun a m => alistInsert m.id { m with repeatTime := "" } a) init := by
    intro ms
    induction ms with
    | nil => intro init; rfl
    | cons p rest ih =>
      intro init
      simp only [List.foldl_cons, List.map_cons]
      exact ih _
  rw [hfoldpair, hfst]
  have hmids : (((txs.map Prod.snd).filter (matchesToday today)).map Transaction.id).Nodup := by
    have hsub : ((txs.map Prod.snd).filter (matchesToday today)).Sublist (txs.map Prod.snd) :=
      List.filter_sublist _
    have hsub2 : (((txs.map Prod.snd).filter (matchesToday today)).map
        Transaction.id).Sublist ((txs.map Prod.snd).map Transaction.id) :=
      hsub.map Transaction.id
    apply hsub2.nodup
    rw [List.map_map]
    have : txs.map (Transaction.id ∘ Prod.snd) = txs.map Prod.fst := by
      apply List.map_congr_left
      intro kt hkt
      exact hid kt hkt
    rw [this]
    exact hkeys
  rw [clearFold_eq_map _ _ hkeys hmemtxs hmids]
  apply List.map_congr_left
  intro kt hkt
  have hiff : kt.1 ∈ ((txs.map Prod.snd).filter (matchesToday today)).map Transaction.id ↔
      matchesToday today kt.2 = true := by
    constructor
    · intro hmemid
      obtain ⟨m, hm, hmid⟩ := List.mem_map.mp hmemid
      have hv : kt.2 = m := by
        apply value_eq_of_nodup hkeys _ (hmemtxs m hm)
        rw [hmid]
        exact hkt
      rw [hv]
      exact List.of_mem_filter hm
    · intro hmt
      apply List.mem_map.mpr
      refine ⟨kt.2, ?_, hid kt hkt⟩
      exact List.mem_filter.mpr ⟨List.mem_map_of_mem Prod.snd hkt, hmt⟩
  rw [if_congr hiff rfl rfl]

theorem c2_materialize_witness :
    (processAllRecurringTransactions ⟨739260, 0⟩ (fun _ => ["f1"])
        [("u", [("t1", (⟨"t1", 5, "x", "c", ⟨739200, 0⟩, ⟨739260, 0⟩, "10"⟩ : Transaction))])]).lookup
        "u" =
      some (([("t1", (⟨"t1", 5, "x", "c", ⟨739200, 0⟩, ⟨739260, 0⟩, "10"⟩ : Transaction))] :
            UserTxs).map
          (fun kt => if matchesToday ⟨739260, 0⟩ kt.2 = true
            then (kt.1, { kt.2 with repeatTime := "" }) else kt) ++
        (((([("t1", (⟨"t1", 5, "x", "c", ⟨739200, 0⟩, ⟨739260, 0⟩, "10"⟩ : Transaction))] :
              UserTxs).map Prod.snd).filter (matchesToday ⟨739260, 0⟩)).zip ["f1"]).map
          (fun p => (p.2, spawnTransaction ⟨739260, 0⟩ p.2 p.1))) :=
  c2_materialize ⟨739260, 0⟩ (fun _ => ["f1"])
    [("u", [("t1", ⟨"t1", 5, "x", "c", ⟨739200, 0⟩, ⟨739260, 0⟩, "10"⟩)])] "u"
    [("t1", ⟨"t1", 5, "x", "c", ⟨739200, 0⟩, ⟨739260, 0⟩, "10"⟩)]
    rfl (by decide) (by decide) (by decide) (by decide) (by decide)

/-! ### C3: the repeat-spec / next-appear-date invariant -/

/-- Every month has at least 28 days. -/
theorem daysInMonth_ge (y m : Int) : 28 ≤ daysInMonth y m := by
  simp only [daysInMonth]
  split_ifs <;> omega

/-- `AddDate(0, 1, 0)` moves at least 28 days forward. -/
theorem addDate_month_lb (t : GoTime) : t.day + 28 ≤ (t.addDate 0 1 0).day := by
  simp only [GoTime.addDate, add_zero, zero_add]
  obtain ⟨hm1, hm12, hd1, hdlen⟩ := civilFromDays_range t.day
  have hrt := daysFromCivil_civilFromDays t.day
  have hstep := daysFromCivil_month_step (civYear t.day) (civMonth t.day) (civDay t.day) hm1 hm12
  have hge := daysInMonth_ge (civYear t.day) (civMonth t.day)
  omega

/-- A day-of-month candidate for a positive day token lies after day 0 when
the reference does. -/
theorem dayTokenCandidate_pos (now : GoTime) (d : Int) (hnow : 1 ≤ now.day)
    (hd1 : 1 ≤ d) : 1 ≤ (dayTokenCandidate now d).day := by
  obtain ⟨hm1, hm12, hdd1, hdlen⟩ := civilFromDays_range now.day
  have hrt := daysFromCivil_civilFromDays now.day
  unfold dayTokenCandidate
  split_ifs with h
  · simp only [GoTime.date]
    have l1 := daysFromCivil_linear (civYear now.day) (civMonth now.day) d
    have l2 := daysFromCivil_linear (civYear now.day) (civMonth now.day) (civDay now.day)
    omega
  · push_neg at h
    simp only [GoTime.date, GoTime.addDate, add_zero, zero_add]
    have hble : d ≤ daysInMonth (civYear now.day) (civMonth now.day) := by omega
    have hround := civilFromDays_daysFromCivil (civYear now.day) (civMonth now.day) d
      hm1 hm12 hd1 hble
    have hy : civYear (daysFromCivil (civYear now.day) (civMonth now.day) d) =
        civYear now.day := congrArg (fun p => p.1) hround
    have hm : civMonth (daysFromCivil (civYear now.day) (civMonth now.day) d) =
        civMonth now.day := congrArg (fun p => p.2.1) hround
    have hd : civDay (daysFromCivil (civYear now.day) (civMonth now.day) d) = d :=
      congrArg (fun p => p.2.2) hround
    rw [hy, hm, hd]
    have hstep := daysFromCivil_month_step (civYear now.day) (civMonth now.day) d hm1 hm12
    have l1 := daysFromCivil_linear (civYear now.day) (civMonth now.day) d
    have l2 := daysFromCivil_linear (civYear now.day) (civMonth now.day) (civDay now.day)
    omega

/-- A weekday candidate lies after day 0 when the reference does. -/
theorem weekdayCandidate_pos (now : GoTime) (w : Int) (hnow : 1 ≤ now.day)
    (hw : 0 ≤ w) : 1 ≤ (weekdayCandidate now w).day := by
  rw [weekdayCandidate_eq]
  have hr := goWeekday_range now
  dsimp only
  split_ifs <;> omega

/-- For a spec accepted by `validateRepeatString` and a reference after day 0,
`calculateNextAppearDate` returns a date after day 0 — in particular never the
zero time. -/
theorem calcNext_pos (now : GoTime) (spec : String) (hnow : 1 ≤ now.day)
    (hval : validateRepeatString spec = none) :
    1 ≤ (calculateNextAppearDate now spec).1.day := by
  rw [calcNext_eq_foldl_gmin]
  rcases foldl_gmin_mem (tokenCandidates now spec) (now.addDate 1 0 0) with h | h
  · simp only [h]
    have := addDate_year_lb now
    omega
  · simp only []
    obtain ⟨tok, htok, hc⟩ := List.mem_filterMap.mp h
    by_cases hspec : spec = ""
    · subst hspec
      simp only [show commaTokens "" = [""] from rfl] at htok
      simp only [List.mem_singleton] at htok
      subst htok
      rw [@tokenCandidate_none_of_trim_empty now "" (by decide)] at hc
      cases hc
    · have hvp : validateParts (commaTokens spec) = none := by
        simpa [validateRepeatString, hspec] using hval
      rw [validateParts_none_iff] at hvp
      have htokok := List.all_eq_true.mp hvp tok htok
      simp only [Bool.or_eq_true, beq_iff_eq] at htokok
      simp only [tokenCandidate] at hc
      rcases htokok with he | hok
      · rw [if_pos he] at hc
        cases hc
      · rw [if_neg (by
          intro he
          rw [he] at hok
          exact absurd hok (by decide))] at hc
        simp only [specTokenOk, Bool.or_eq_true] at hok
        cases hatoi : goAtoi (goTrim tok) with
        | some n =>
          rw [hatoi] at hc
          simp only [Option.some.injEq] at hc
          rcases hok with hok1 | hok2
          · rw [hatoi] at hok1
            simp only [decide_eq_true_eq] at hok1
            rw [← hc]
            exact dayTokenCandidate_pos now n hnow hok1.1
          · rw [goAtoi_some_weekday_none hatoi] at hok2
            simp [Option.isSome] at hok2
        | none =>
          rw [hatoi] at hc
          rcases hok with hok1 | hok2
          · rw [hatoi] at hok1
            simp at hok1
          · cases hw : convertToWeekDay (goTrim tok) with
            | none => rw [hw] at hc; cases hc
            | some w =>
              rw [hw] at hc
              simp only [Option.some.injEq] at hc
              obtain ⟨hw1, _⟩ := convertToWeekDay_range hw
              rw [← hc]
              exact weekdayCandidate_pos now w hnow hw1

/-- Entries after an insert: the new binding or an old entry. -/
theorem mem_alistInsert {β : Type} {k : String} {v : β} {l : List (String × β)}
    {kt : String × β} (h : kt ∈ alistInsert k v l) : kt = (k, v) ∨ kt ∈ l := by
  induction l with
  | nil => simpa [alistInsert] using h
  | cons p rest ih =>
    obtain ⟨a, b⟩ := p
    by_cases ha : a = k
    · simp only [alistInsert, if_pos ha] at h
      rcases List.mem_cons.mp h with h1 | h1
      · exact Or.inl h1
      · exact Or.inr (List.mem_cons_of_mem _ h1)
    · simp only [alistInsert, if_neg ha] at h
      rcases List.mem_cons.mp h with h1 | h1
      · exact Or.inr (h1 ▸ List.mem_cons_self _ _)
      · rcases ih h1 with h2 | h2
        · exact Or.inl h2
        · exact Or.inr (List.mem_cons_of_mem _ h2)

/-- Entries after an erase are entries of the original. -/
theorem mem_alistErase {β : Type} {k : String} {l : List (String × β)}
    {kt : String × β} (h : kt ∈ alistErase k l) : kt ∈ l := by
  induction l with
  | nil => simp [alistErase] at h
  | cons p rest ih =>
    obtain ⟨a, b⟩ := p
    by_cases ha : a = k
    · simp only [alistErase, if_pos ha] at h
      exact List.mem_cons_of_mem _ h
    · simp only [alistErase, if_neg ha] at h
      rcases List.mem_cons.mp h with h1 | h1
      · exact h1 ▸ List.mem_cons_self _ _
      · exact List.mem_cons_of_mem _ (ih h1)

/-- A successful lookup exhibits an entry. -/
theorem mem_of_lookup {β : Type} {k : String} {v : β} {l : List (String × β)}
    (h : l.lookup k = some v) : (k, v) ∈ l := by
  induction l with
  | nil => simp [List.lookup] at h
  | cons p rest ih =>
    obtain ⟨a, b⟩ := p
    simp only [List.lookup] at h
    by_cases hk : k = a
    · subst hk
      simp only [beq_self_eq_true] at h
      cases h
      exact List.mem_cons_self _ _
    · rw [show (k == a) = false by simp [hk]] at h
      exact List.mem_cons_of_mem _ (ih h)

/-- Entries after the per-user recurrence pass: an original entry, a cleared
original, or a spawned copy of some matching original. -/
theorem mem_processUser {today : GoTime} {freshIDs : List String} {txs : UserTxs}
    {kt : String × Transaction} (h : kt ∈ processUser today freshIDs txs) :
    kt ∈ txs ∨
      ∃ p ∈ ((txs.map Prod.snd).filter (matchesToday today)).zip freshIDs,
        kt = ((p : Transaction × String).1.id, { p.1 with repeatTime := "" }) ∨
          kt = (p.2, spawnTransaction today p.2 p.1) := by
  have hgen : ∀ (ms : List (Transaction × String)) (acc : UserTxs),
      kt ∈ ms.foldl
        (fun acc ot =>
          alistInsert ot.1.id { ot.1 with repeatTime := "" }
            (alistInsert ot.2 (spawnTransaction today ot.2 ot.1) acc)) acc →
      kt ∈ acc ∨ ∃ p ∈ ms,
        kt = ((p : Transaction × String).1.id, { p.1 with repeatTime := "" }) ∨
          kt = (p.2, spawnTransaction today p.2 p.1) := by
    intro ms
    induction ms with
    | nil =>
      intro acc hacc
      exact Or.inl hacc
    | cons p rest ih =>
      intro acc hacc
      simp only [List.foldl_cons] at hacc
      rcases ih _ hacc with h1 | ⟨q, hq, hq2⟩
      · rcases mem_alistInsert h1 with h2 | h2
        · exact Or.inr ⟨p, List.mem_cons_self _ _, Or.inl h2⟩
        · rcases mem_alistInsert h2 with h3 | h3
          · exact Or.inr ⟨p, List.mem_cons_self _ _, Or.inr h3⟩
          · exact Or.inl h3
      · exact Or.inr ⟨q, List.mem_cons_of_mem _ hq, hq2⟩
  exact hgen _ _ h

/-- Every month has at most 31 days. -/
theorem daysInMonth_le (y m : Int) : daysInMonth y m ≤ 31 := by
  simp only [daysInMonth]
  split_ifs <;> omega

/-- A time after day 0 is not the zero time. -/
theorem isZero_false_of_pos {t : GoTime} (h : 1 ≤ t.day) : t.isZero = false := by
  have hd : (t.day == 0) = false := by
    simp only [beq_eq_false_iff_ne, ne_eq]
    omega
  simp [GoTime.isZero, hd]

/-- The decimal rendering of a day in [1,31] is an accepted repeat spec. -/
theorem validate_toString_day (k : Int) (h1 : 1 ≤ k) (h2 : k ≤ 31) :
    validateRepeatString (toString k) = none := by
  interval_cases k <;> decide

/-- The invariant the code actually maintains on every stored transaction:
its repeat spec is accepted by `validateRepeatString`, and a non-empty spec
comes with a set (non-zero) next-appear date.  The converse direction of the
claimed biconditional is *not* maintained. -/
def TxWellFormed (t : Transaction) : Prop :=
  validateRepeatString t.repeatTime = none ∧
    (t.repeatTime ≠ "" → t.nextAppearDate.isZero = false)

/-- The demo dataset satisfies the maintained invariant. -/
theorem demo_wf (now : GoTime) (hnow : 1 ≤ now.day) :
    ∀ kt ∈ getInitialTransactions now, TxWellFormed (kt : String × Transaction).2 := by
  intro kt hkt
  obtain ⟨h1, h2, h3, h4⟩ := civilFromDays_range now.day
  simp only [getInitialTransactions, List.mem_cons, List.not_mem_nil, or_false] at hkt
  rcases hkt with rfl | rfl | rfl
  · exact ⟨rfl, fun h => absurd rfl h⟩
  · exact ⟨rfl, fun h => absurd rfl h⟩
  · refine ⟨?_, ?_⟩
    · exact validate_toString_day _ h3 (le_trans h4 (daysInMonth_le _ _))
    · intro _
      dsimp only
      apply isZero_false_of_pos
      have := addDate_month_lb now
      omega

/-- Store states reachable through the service operations named by the claim:
the empty initial store, `CreateTransaction` (with its demo seeding),
`DeleteTransaction` and `ProcessAllRecurringTransactions`, with no restriction
on the reference instants — in particular the client-supplied creation date may
be `0001-01-01` (day 0, Go's zero time), which `time.Parse("2006-01-02", …)`
accepts. -/
inductive Reachable : Store → Prop where
  | init : Reachable []
  | create {s s' : Store} {now date : GoTime} {userID newID rid : String} {amount : ℚ}
      {title category repeatTime : String}
      (hs : Reachable s)
      (hc : createTransaction now s userID newID amount title category date repeatTime =
        some (s', rid)) : Reachable s'
  | delete {s : Store} (userID id : String) (hs : Reachable s) :
      Reachable (deleteTransaction s userID id)
  | materialize {s : Store} (today : GoTime) (freshIDs : String → List String)
      (hs : Reachable s) :
      Reachable (processAllRecurringTransactions today freshIDs s)

/-- The subset of `Reachable` traces whose reference instants all lie strictly
after day 0: every `time.Now()` value, creation date and processing day is
`0001-01-02` or later.  The C3 invariant below holds on these traces only; the
counterexample shows it fails on a `Reachable` trace whose creation date is
day 0 itself. -/
inductive ReachableModern : Store → Prop where
  | init : ReachableModern []
  | create {s s' : Store} {now date : GoTime} {userID newID rid : String} {amount : ℚ}
      {title category repeatTime : String}
      (hs : ReachableModern s) (hnow : 1 ≤ now.day) (hdate : 1 ≤ date.day)
      (hc : createTransaction now s userID newID amount title category date repeatTime =
        some (s', rid)) : ReachableModern s'
  | delete {s : Store} (userID id : String) (hs : ReachableModern s) :
      ReachableModern (deleteTransaction s userID id)
  | materialize {s : Store} (today : GoTime) (freshIDs : String → List String)
      (hs : ReachableModern s) (htoday : 1 ≤ today.day) :
      ReachableModern (processAllRecurringTransactions today freshIDs s)

/-- Modern-dated traces are traces. -/
theorem reachableModern_reachable {s : Store} (hs : ReachableModern s) : Reachable s := by
  induction hs with
  | init => exact Reachable.init
  | @create s s' now date userID newID rid amount title category repeatTime hs hnow hdate hc ih =>
    exact Reachable.create ih hc
  | delete userID id hs ih => exact Reachable.delete userID id ih
  | materialize today freshIDs hs htoday ih => exact Reachable.materialize today freshIDs ih

/-- Every store reached along a modern-dated trace satisfies `TxWellFormed` at
every stored transaction. -/
theorem reachable_wf {s : Store} (hs : ReachableModern s) :
    ∀ p ∈ s, ∀ kt ∈ (p : String × UserTxs).2, TxWellFormed (kt : String × Transaction).2 := by
  induction hs with
  | init => simp
  | @create s s' now date userID newID rid amount title category repeatTime hs hnow hdate hc ih =>
    cases hval : validateRepeatString repeatTime with
    | some e =>
      rw [createTransaction, hval] at hc
      cases hc
    | none =>
      rw [createTransaction, hval] at hc
      simp only [Option.some.injEq, Prod.mk.injEq] at hc
      obtain ⟨hs'eq, -⟩ := hc
      subst hs'eq
      intro p hp kt hkt
      rcases mem_alistInsert hp with rfl | hps
      · -- the touched user's map
        rcases mem_alistInsert hkt with rfl | hktm
        · -- the new transaction t1
          by_cases hrt : repeatTime = ""
          · simp only [hrt, ne_eq, not_true_eq_false, if_false]
            exact ⟨by simpa [hrt] using hval, fun h => absurd rfl h⟩
          · simp only [ne_eq, hrt, not_false_eq_true, if_true]
            refine ⟨hval, fun _ => ?_⟩
            exact isZero_false_of_pos (calcNext_pos date repeatTime hdate hval)
        · -- an entry of the previous user map (or the demo data)
          cases hlk : s.lookup userID with
          | none =>
            rw [hlk] at hktm
            exact demo_wf now hnow kt hktm
          | some m =>
            rw [hlk] at hktm
            exact ih (userID, m) (mem_of_lookup hlk) kt hktm
      · exact ih p hps kt hkt
  | @delete s1 userID id hs ih =>
    intro p hp kt hkt
    unfold deleteTransaction at hp
    cases hlk : List.lookup userID s1 with
    | none =>
      rw [hlk] at hp
      exact ih p hp kt hkt
    | some m =>
      rw [hlk] at hp
      rcases mem_alistInsert hp with rfl | hps
      · exact ih (userID, m) (mem_of_lookup hlk) kt (mem_alistErase hkt)
      · exact ih p hps kt hkt
  | @materialize s1 today freshIDs hs htoday ih =>
    intro p hp kt hkt
    simp only [processAllRecurringTransactions, List.mem_map] at hp
    obtain ⟨q, hq, rfl⟩ := hp
    rcases mem_processUser hkt with hin | ⟨pr, hpr, hpr2⟩
    · exact ih q hq kt hin
    · have hm : (pr : Transaction × String).1 ∈
          (q.2.map Prod.snd).filter (matchesToday today) := (List.of_mem_zip hpr).1
      have hmt : matchesToday today pr.1 = true := List.of_mem_filter hm
      have hmv : pr.1 ∈ q.2.map Prod.snd := List.mem_of_mem_filter hm
      obtain ⟨kt0, hkt0, hkt0eq⟩ := List.mem_map.mp hmv
      have hwf0 : TxWellFormed pr.1 := hkt0eq ▸ ih q hq kt0 hkt0
      rcases hpr2 with rfl | rfl
      · exact ⟨rfl, fun h => absurd rfl h⟩
      · refine ⟨hwf0.1, fun _ => ?_⟩
        exact isZero_false_of_pos (calcNext_pos today pr.1.repeatTime htoday hwf0.1)

/-- C3 (amended): the claimed biconditional fails in both directions on
reachable states.  What holds is its forward implication restricted to
modern-dated traces (`ReachableModern`: every reference instant strictly after
day 0): there, every stored transaction with a non-empty repeat spec has a set
(non-zero) next-appear date.  The counterexample shows both that the converse
fails permanently (not transiently) after a recurrence fires, and that even
this forward direction fails on a plain `Reachable` trace whose creation date
is `0001-01-01` — Go's zero time, which the API's date parsing accepts. -/
theorem c3_invariant {s : Store} (hs : ReachableModern s) :
    ∀ p ∈ s, ∀ kt ∈ (p : String × UserTxs).2,
      (kt : String × Transaction).2.repeatTime ≠ "" →
        kt.2.nextAppearDate.isZero = false :=
  fun p hp kt hkt hne => (reachable_wf hs p hp kt hkt).2 hne

/-- Store after creating a repeating transaction (spec `"10"`, reference
2025-01-05) for user `"u"` in the empty store. -/
def s1c3 : Store :=
  ((createTransaction ⟨739255, 0⟩ [] "u" "a" 1 "t" "c" ⟨739255, 0⟩ "10").getD ([], "")).1

/-- …after the recurrence pass of 2025-01-10, which fires that transaction. -/
def s2c3 : Store := processAllRecurringTransactions ⟨739260, 0⟩ (fun _ => ["b"]) s1c3

/-- …after a further recurrence pass on 2025-01-11, which fires nothing. -/
def s3c3 : Store := processAllRecurringTransactions ⟨739261, 0⟩ (fun _ => []) s2c3

/-- Store after creating a repeating transaction (spec `"1"`) dated
`0001-01-01` — Go's zero time, accepted by the API's date parsing — for user
`"u"` in the empty store. -/
def s4c3 : Store :=
  ((createTransaction ⟨500, 0⟩ [] "u" "a" 1 "t" "c" ⟨0, 0⟩ "1").getD ([], "")).1

/-- C3 (counterexample): both directions of the claimed biconditional fail on
reachable states.  Converse: the claim allows a cleared repeat spec with a set
next-appear date only transiently, immediately after a recurrence fires; in
the reachable state `s3c3` the original transaction `"a"` still has spec `""`
and next-appear date 2025-01-10 although the latest operation fired nothing
(`s3c3 = s2c3`), so the violation is permanent.  Forward: in the reachable
state `s4c3` a transaction created with date `0001-01-01` and spec `"1"` is
stored with the non-empty spec `"1"` and next-appear date `time.Date(1, 1, 1,
…)` — exactly the zero time, so its next-appear date counts as unset. -/
theorem c3_counterexample :
    (Reachable s3c3 ∧
      ((s3c3.lookup "u").getD []).lookup "a" =
        some ⟨"a", 1, "t", "c", ⟨739255, 0⟩, ⟨739260, 0⟩, ""⟩ ∧
      s3c3 = s2c3) ∧
    (Reachable s4c3 ∧
      ((s4c3.lookup "u").getD []).lookup "a" =
        some ⟨"a", 1, "t", "c", ⟨0, 0⟩, ⟨0, 0⟩, "1"⟩ ∧
      (⟨0, 0⟩ : GoTime).isZero = true) := by
  have hc : createTransaction ⟨739255, 0⟩ [] "u" "a" 1 "t" "c" ⟨739255, 0⟩ "10" =
      some (s1c3, "a") := by decide
  have h1 : Reachable s1c3 := Reachable.create Reachable.init hc
  have h2 : Reachable s2c3 := Reachable.materialize ⟨739260, 0⟩ (fun _ => ["b"]) h1
  have h3 : Reachable s3c3 := Reachable.materialize ⟨739261, 0⟩ (fun _ => []) h2
  have hc4 : createTransaction ⟨500, 0⟩ [] "u" "a" 1 "t" "c" ⟨0, 0⟩ "1" =
      some (s4c3, "a") := by decide
  have h4 : Reachable s4c3 := Reachable.create Reachable.init hc4
  exact ⟨⟨h3, by decide, by decide⟩, ⟨h4, by decide, by decide⟩⟩

theorem c3_invariant_witness :
    ReachableModern s1c3 ∧
      ((⟨"a", 1, "t", "c", ⟨739255, 0⟩, ⟨739260, 0⟩, "10"⟩ :
        Transaction)).nextAppearDate.isZero = false := by
  have hc : createTransaction ⟨739255, 0⟩ [] "u" "a" 1 "t" "c" ⟨739255, 0⟩ "10" =
      some (s1c3, "a") := by decide
  have h1 : ReachableModern s1c3 :=
    ReachableModern.create ReachableModern.init (by decide) (by decide) hc
  refine ⟨h1, ?_⟩
  exact c3_invariant h1 ("u", (s1c3.lookup "u").getD []) (by decide)
    ("a", ⟨"a", 1, "t", "c", ⟨739255, 0⟩, ⟨739260, 0⟩, "10"⟩) (by decide) (by decide)
